import Mathlib

set_option maxRecDepth 4000

/-!
# Verification of the MessagePack / JSON converter core

This development embeds the conversion core of the repository
(`src/main.rs`): the two public operations `json_to_messagepack`
(lines 152-158) and `messagepack_to_json` (lines 160-171), the
transport classifier `is_hex` (lines 173-175), and the behaviour of
the library stages they delegate to (serde_json parsing and pretty
printing, rmp_serde MessagePack encoding and decoding, the hex and
base64 transports).  Strings are modelled as `List Char` (Rust
strings are sequences of Unicode scalar values), bytes as `Nat`
values below 256.

Modelling notes, applying to the whole file:
* The serde_json `Number` type distinguishes integers (`u64`/`i64`)
  from floats (`f64`).  IEEE-754 float payloads are not shallowly
  embeddable, so the model covers the integer fragment: the embedded
  parser rejects numeric literals with a fraction or exponent part,
  with integer literals outside the `u64`/`i64` ranges (both of which
  serde_json would parse as `f64`), and the embedded MessagePack
  decoder rejects the `f32`/`f64` markers.  All quantified theorems
  therefore range over the float-free fragment of the data model.
* Error payload texts produced by the libraries are not reproduced
  verbatim; the orchestrator-added stage labels (the only strings the
  source itself builds) are exact.  Theorems about errors check the
  stage label only.
* Recursion-depth limits of the libraries (serde_json, rmp_serde) are
  not modelled; fuel arguments below are a termination artifact chosen
  large enough for every input the embedded code accepts.
-/

namespace MpJson

/-! ## Rust char::to_digit(16), used by is_hex -/

/-- Models Rust `char::to_digit(16)`: wrapping subtraction of the digit
characters in `u32`, then the case-folded letter path (Rust computes
`self as u32 | 0x20`, an OR with the single bit 5, written here as the
equivalent arithmetic update of that bit), accepting exactly `0`-`9`,
`a`-`f` and `A`-`F`. -/
def toDigit16 (c : Char) : Option Nat :=
  let d := (c.toNat + 2 ^ 32 - 48) % 2 ^ 32
  if d < 10 then some d
  else
    let folded := if c.toNat / 32 % 2 = 1 then c.toNat else c.toNat + 32
    let d2 := (folded + 2 ^ 32 - 97) % 2 ^ 32 + 10
    if d2 < 16 then some d2 else none

/-- Embeds `is_hex` (src/main.rs lines 173-175):
`s.chars().all(|c| c.is_digit(16))`. -/
def is_hex (s : List Char) : Bool :=
  s.all fun c => (toDigit16 c).isSome

/-! ## The hex crate: decode and encode -/

/-- Models the hex crate per-character value table (`val`). -/
def hexVal (c : Char) : Option Nat :=
  if '0' ≤ c ∧ c ≤ '9' then some (c.toNat - 48)
  else if 'a' ≤ c ∧ c ≤ 'f' then some (c.toNat - 97 + 10)
  else if 'A' ≤ c ∧ c ≤ 'F' then some (c.toNat - 65 + 10)
  else none

/-- Pairwise hex decoding, called on even-length input. -/
def hexDecodeAux : List Char → Except (List Char) (List Nat)
  | [] => .ok []
  | c1 :: c2 :: rest =>
    match hexVal c1, hexVal c2 with
    | some h, some l => (hexDecodeAux rest).map fun bs => (h * 16 + l) :: bs
    | _, _ => .error "Invalid character".data
  | [_] => .error "Odd number of digits".data

/-- Models `hex::decode`: an odd-length input fails up front with the
`OddLength` error, otherwise byte pairs are decoded left to right. -/
def hexDecode (s : List Char) : Except (List Char) (List Nat) :=
  if s.length % 2 = 1 then .error "Odd number of digits".data
  else hexDecodeAux s

/-- Lower-case hex digit of a value below 16, as in `hex::encode`. -/
def hexDigitLower (n : Nat) : Char :=
  if n < 10 then Char.ofNat (48 + n) else Char.ofNat (87 + n)

/-- Models `hex::encode` (used by the repository test
`test_json_to_messagepack` to state the expected bytes). -/
def hexEncode : List Nat → List Char
  | [] => []
  | b :: bs => hexDigitLower (b / 16) :: hexDigitLower (b % 16) :: hexEncode bs

/-! ## The base64 crate: general_purpose::STANDARD -/

/-- The standard base64 alphabet, by 6-bit group value. -/
def b64Char (n : Nat) : Char :=
  if n < 26 then Char.ofNat (65 + n)
  else if n < 52 then Char.ofNat (97 + (n - 26))
  else if n < 62 then Char.ofNat (48 + (n - 52))
  else if n = 62 then '+' else '/'

/-- Inverse alphabet lookup of the standard base64 engine. -/
def b64Index (c : Char) : Option Nat :=
  if 'A' ≤ c ∧ c ≤ 'Z' then some (c.toNat - 65)
  else if 'a' ≤ c ∧ c ≤ 'z' then some (c.toNat - 97 + 26)
  else if '0' ≤ c ∧ c ≤ '9' then some (c.toNat - 48 + 52)
  else if c = '+' then some 62
  else if c = '/' then some 63
  else none

/-- Models `general_purpose::STANDARD.encode`: three input bytes per
four output characters, with `=` padding on the final partial group. -/
def base64Encode : List Nat → List Char
  | [] => []
  | [b1] => [b64Char (b1 / 4), b64Char (b1 % 4 * 16), '=', '=']
  | [b1, b2] =>
    [b64Char (b1 / 4), b64Char (b1 % 4 * 16 + b2 / 16), b64Char (b2 % 16 * 4), '=']
  | b1 :: b2 :: b3 :: bs =>
    b64Char (b1 / 4) :: b64Char (b1 % 4 * 16 + b2 / 16) ::
      b64Char (b2 % 16 * 4 + b3 / 64) :: b64Char (b3 % 64) :: base64Encode bs

/-- Models `general_purpose::STANDARD.decode`: four-character groups,
canonical `=` padding only at the end, non-zero trailing bits rejected,
input length must be a multiple of four. -/
def base64Decode : List Char → Except (List Char) (List Nat)
  | [] => .ok []
  | c1 :: c2 :: c3 :: c4 :: rest =>
    match b64Index c1, b64Index c2 with
    | some n1, some n2 =>
      if c3 = '=' then
        if c4 = '=' ∧ rest = [] then
          if n2 % 16 = 0 then .ok [n1 * 4 + n2 / 16]
          else .error "Invalid last symbol".data
        else .error "Invalid padding".data
      else
        match b64Index c3 with
        | some n3 =>
          if c4 = '=' then
            if rest = [] then
              if n3 % 4 = 0 then .ok [n1 * 4 + n2 / 16, n2 % 16 * 16 + n3 / 4]
              else .error "Invalid last symbol".data
            else .error "Invalid padding".data
          else
            match b64Index c4 with
            | some n4 =>
              (base64Decode rest).map fun bs =>
                (n1 * 4 + n2 / 16) :: (n2 % 16 * 16 + n3 / 4) :: (n3 % 4 * 64 + n4) :: bs
            | none => .error "Invalid symbol".data
        | none => .error "Invalid symbol".data
    | _, _ => .error "Invalid symbol".data
  | _ => .error "Invalid input length".data

/-! ## UTF-8 -/

/-- UTF-8 encoding of one Unicode scalar value. -/
def utf8EncodeChar (c : Char) : List Nat :=
  let n := c.toNat
  if n < 128 then [n]
  else if n < 2048 then [192 + n / 64, 128 + n % 64]
  else if n < 65536 then [224 + n / 4096, 128 + n / 64 % 64, 128 + n % 64]
  else [240 + n / 262144, 128 + n / 4096 % 64, 128 + n / 64 % 64, 128 + n % 64]

/-- UTF-8 encoding of a string. -/
def utf8Encode : List Char → List Nat
  | [] => []
  | c :: cs => utf8EncodeChar c ++ utf8Encode cs

mutual

/-- Validating UTF-8 decoding, as performed by `str::from_utf8`:
rejects overlong forms, surrogates, values above U+10FFFF, stray
continuation bytes and truncated sequences. -/
def utf8Decode : List Nat → Option (List Char)
  | [] => some []
  | b :: rest =>
    if b < 128 then (utf8Decode rest).map (Char.ofNat b :: ·)
    else if b < 194 then none
    else if b < 224 then utf8Dec2 b rest
    else if b < 240 then utf8Dec3 b rest
    else if b < 245 then utf8Dec4 b rest
    else none

/-- Continuation of a two-byte UTF-8 sequence. -/
def utf8Dec2 (b : Nat) : List Nat → Option (List Char)
  | b2 :: r =>
    if 128 ≤ b2 ∧ b2 < 192 then
      (utf8Decode r).map (Char.ofNat ((b - 192) * 64 + (b2 - 128)) :: ·)
    else none
  | [] => none

/-- Continuation of a three-byte UTF-8 sequence (surrogates and
overlong forms rejected). -/
def utf8Dec3 (b : Nat) : List Nat → Option (List Char)
  | b2 :: b3 :: r =>
    if (128 ≤ b2 ∧ b2 < 192) ∧ (128 ≤ b3 ∧ b3 < 192) then
      if 2048 ≤ (b - 224) * 4096 + (b2 - 128) * 64 + (b3 - 128)
          ∧ ¬(55296 ≤ (b - 224) * 4096 + (b2 - 128) * 64 + (b3 - 128)
              ∧ (b - 224) * 4096 + (b2 - 128) * 64 + (b3 - 128) < 57344) then
        (utf8Decode r).map (Char.ofNat ((b - 224) * 4096 + (b2 - 128) * 64 + (b3 - 128)) :: ·)
      else none
    else none
  | _ => none

/-- Continuation of a four-byte UTF-8 sequence (values above U+10FFFF
and overlong forms rejected). -/
def utf8Dec4 (b : Nat) : List Nat → Option (List Char)
  | b2 :: b3 :: b4 :: r =>
    if (128 ≤ b2 ∧ b2 < 192) ∧ (128 ≤ b3 ∧ b3 < 192) ∧ (128 ≤ b4 ∧ b4 < 192) then
      if 65536 ≤ (b - 240) * 262144 + (b2 - 128) * 4096 + (b3 - 128) * 64 + (b4 - 128)
          ∧ (b - 240) * 262144 + (b2 - 128) * 4096 + (b3 - 128) * 64 + (b4 - 128) < 1114112 then
        (utf8Decode r).map
          (Char.ofNat ((b - 240) * 262144 + (b2 - 128) * 4096 + (b3 - 128) * 64 + (b4 - 128)) :: ·)
      else none
    else none
  | _ => none

end

/-! ## Big-endian byte strings -/

/-- Big-endian bytes of `n`, `k` bytes wide (truncating above `256 ^ k`). -/
def beBytes : Nat → Nat → List Nat
  | 0, _ => []
  | k + 1, n => beBytes k (n / 256) ++ [n % 256]

/-- Split off the first `k` bytes, failing if the input is shorter. -/
def readN : Nat → List Nat → Option (List Nat × List Nat)
  | 0, s => some ([], s)
  | _ + 1, [] => none
  | k + 1, b :: s =>
    match readN k s with
    | some (xs, r) => some (b :: xs, r)
    | none => none

/-- Big-endian value of a byte string. -/
def beVal (bs : List Nat) : Nat :=
  bs.foldl (fun a b => a * 256 + b) 0

/-! ## The value model: serde_json::Value, integer fragment

serde_json (without its preserve_order feature, as in this repository)
stores objects in a `BTreeMap<String, Value>`: keys are kept sorted in
the byte-lexicographic order of their UTF-8 encodings, which coincides
with the lexicographic order on Unicode scalar values, and inserting an
existing key replaces its value (last write wins). -/

/-- The serde_json value model (integer fragment, see the module
docstring). -/
inductive Json where
  | null : Json
  | bool (b : Bool) : Json
  | int (n : Int) : Json
  | str (s : List Char) : Json
  | arr (xs : List Json) : Json
  | obj (kvs : List (List Char × Json)) : Json

/-- Lexicographic order on strings by scalar value: the order of Rust
`String` keys in a `BTreeMap`. -/
def keyLt : List Char → List Char → Bool
  | [], [] => false
  | [], _ :: _ => true
  | _ :: _, [] => false
  | a :: as, b :: bs =>
    if a.toNat < b.toNat then true
    else if b.toNat < a.toNat then false
    else keyLt as bs

/-- `BTreeMap::insert` on the sorted association list: keeps the list
sorted and replaces the value of an existing key. -/
def mapInsert (k : List Char) (v : Json) : List (List Char × Json) → List (List Char × Json)
  | [] => [(k, v)]
  | (k', v') :: kvs =>
    if keyLt k k' then (k, v) :: (k', v') :: kvs
    else if k = k' then (k, v) :: kvs
    else (k', v') :: mapInsert k v kvs

/-- Strict sortedness of the key list, the `BTreeMap` representation
invariant. -/
def sortedKeys : List (List Char × Json) → Bool
  | [] => true
  | [_] => true
  | (k1, _) :: (k2, v2) :: kvs => keyLt k1 k2 && sortedKeys ((k2, v2) :: kvs)

mutual

/-- Well-formedness of a value as produced by the embedded parser and
decoder: integers within the serde_json `i64`/`u64` ranges and every
object sorted with distinct keys. -/
def wf : Json → Bool
  | .null => true
  | .bool _ => true
  | .int n => decide (-(2 ^ 63) ≤ n) && decide (n < 2 ^ 64)
  | .str _ => true
  | .arr xs => wfList xs
  | .obj kvs => sortedKeys kvs && wfObj kvs

/-- Well-formedness of every element of an array. -/
def wfList : List Json → Bool
  | [] => true
  | x :: xs => wf x && wfList xs

/-- Well-formedness of every value of an object. -/
def wfObj : List (List Char × Json) → Bool
  | [] => true
  | (_, v) :: kvs => wf v && wfObj kvs

end

mutual

/-- Size boundedness: every string below 2^32 UTF-8 bytes and every
container below 2^32 entries, so that the 32-bit MessagePack length
headers written by rmp (which casts lengths `as u32`) are faithful. -/
def sizeOk : Json → Bool
  | .null => true
  | .bool _ => true
  | .int _ => true
  | .str s => decide ((utf8Encode s).length < 2 ^ 32)
  | .arr xs => decide (xs.length < 2 ^ 32) && sizeOkList xs
  | .obj kvs => decide (kvs.length < 2 ^ 32) && sizeOkObj kvs

/-- Size boundedness of every element of an array. -/
def sizeOkList : List Json → Bool
  | [] => true
  | x :: xs => sizeOk x && sizeOkList xs

/-- Size boundedness of every entry of an object (keys included). -/
def sizeOkObj : List (List Char × Json) → Bool
  | [] => true
  | (k, v) :: kvs =>
    decide ((utf8Encode k).length < 2 ^ 32) && sizeOk v && sizeOkObj kvs

end

/-! ## MessagePack encoding: rmp_serde::to_vec of a serde_json::Value

rmp always picks the smallest encoding that fits: `write_uint` for the
non-negative (serde_json `PosInt`) numbers, the negative branch of
`write_sint` for the `NegInt` numbers.  Length headers are written from
the Rust length cast `as u32`, which the model mirrors with `% 2 ^ 32`. -/

/-- rmp `write_uint`: minimal unsigned encoding of `n < 2 ^ 64`. -/
def encUint (n : Nat) : List Nat :=
  if n ≤ 127 then [n]
  else if n ≤ 255 then [204, n]
  else if n ≤ 65535 then 205 :: beBytes 2 n
  else if n ≤ 4294967295 then 206 :: beBytes 4 n
  else 207 :: beBytes 8 n

/-- rmp `write_sint`, negative branch: minimal signed encoding of
`n < 0`, two's complement, big-endian. -/
def encSint (n : Int) : List Nat :=
  if -32 ≤ n then [(256 + n).toNat]
  else if -128 ≤ n then [208, (256 + n).toNat]
  else if -32768 ≤ n then 209 :: beBytes 2 (65536 + n).toNat
  else if -2147483648 ≤ n then 210 :: beBytes 4 (4294967296 + n).toNat
  else 211 :: beBytes 8 (18446744073709551616 + n).toNat

/-- rmp `write_str` for a given UTF-8 payload: fixstr, str8, str16 or
str32 header (computed from the length cast `as u32`), then the bytes. -/
def encStrBytes (payload : List Nat) : List Nat :=
  let len := payload.length % 2 ^ 32
  (if len ≤ 31 then [160 + len]
   else if len ≤ 255 then [217, len]
   else if len ≤ 65535 then 218 :: beBytes 2 len
   else 219 :: beBytes 4 len) ++ payload

/-- rmp `write_array_len` on the length cast `as u32`. -/
def encArrayLen (len : Nat) : List Nat :=
  let n := len % 2 ^ 32
  if n ≤ 15 then [144 + n]
  else if n ≤ 65535 then 220 :: beBytes 2 n
  else 221 :: beBytes 4 n

/-- rmp `write_map_len` on the length cast `as u32`. -/
def encMapLen (len : Nat) : List Nat :=
  let n := len % 2 ^ 32
  if n ≤ 15 then [128 + n]
  else if n ≤ 65535 then 222 :: beBytes 2 n
  else 223 :: beBytes 4 n

mutual

/-- Embeds the MessagePack serialization of a serde_json value as
performed by `rmp_serde::to_vec` (src/main.rs line 155). -/
def encode : Json → List Nat
  | .null => [192]
  | .bool b => if b then [195] else [194]
  | .int n => if 0 ≤ n then encUint n.toNat else encSint n
  | .str s => encStrBytes (utf8Encode s)
  | .arr xs => encArrayLen xs.length ++ encodeList xs
  | .obj kvs => encMapLen kvs.length ++ encodeObj kvs

/-- Array elements, in order. -/
def encodeList : List Json → List Nat
  | [] => []
  | x :: xs => encode x ++ encodeList xs

/-- Map entries, in stored (sorted) order: string key then value. -/
def encodeObj : List (List Char × Json) → List Nat
  | [] => []
  | (k, v) :: kvs => encStrBytes (utf8Encode k) ++ encode v ++ encodeObj kvs

end

/-! ## MessagePack decoding: rmp_serde::from_slice into serde_json::Value

The decoder reads exactly one value from the front of the buffer and
leaves any remaining bytes untouched (`from_slice` performs no
end-of-input check).  Markers with no representation in the value model
fail: bin and ext (which the serde_json Value visitor rejects), floats
(outside this model, see the module docstring), and map keys that are
not strings.  The fuel argument is a termination artifact: `from_slice`
below always supplies more than enough. -/

/-- Read `k` raw bytes or fail like rmp does on a truncated buffer. -/
def expectBytes (k : Nat) (s : List Nat) : Except (List Char) (List Nat × List Nat) :=
  match readN k s with
  | some p => .ok p
  | none => .error "unexpected end of input".data

/-- Decode a string payload of `len` bytes, validating UTF-8. -/
def decodeStrPayload (len : Nat) (s : List Nat) : Except (List Char) (Json × List Nat) := do
  let (payload, r) ← expectBytes len s
  match utf8Decode payload with
  | some cs => .ok (.str cs, r)
  | none => .error "invalid utf-8 sequence".data

/-- Two's complement reading of `k` big-endian bytes. -/
def sintOfBytes (k : Nat) (bs : List Nat) : Int :=
  let m := beVal bs
  if m < 2 ^ (8 * k - 1) then (m : Int) else (m : Int) - 2 ^ (8 * k)

/-- The MessagePack marker classification of a lead byte, as in the rmp
crate `Marker` enum read by `from_slice`.  `uintN`/`sintN`/`strN`/
`arrN`/`mapN` carry the width of the length or payload field. -/
inductive Marker where
  | posfix (n : Nat) : Marker
  | fixmap (n : Nat) : Marker
  | fixarr (n : Nat) : Marker
  | fixstr (n : Nat) : Marker
  | mnil : Marker
  | reserved : Marker
  | mfalse : Marker
  | mtrue : Marker
  | bin : Marker
  | ext : Marker
  | float : Marker
  | uintN (k : Nat) : Marker
  | sintN (k : Nat) : Marker
  | fixext : Marker
  | strN (k : Nat) : Marker
  | arrN (k : Nat) : Marker
  | mapN (k : Nat) : Marker

/-- Marker of a lead byte (rmp `Marker::from_u8`). -/
def marker (b : Nat) : Marker :=
  if b ≤ 127 then .posfix b
  else if b ≤ 143 then .fixmap (b - 128)
  else if b ≤ 159 then .fixarr (b - 144)
  else if b ≤ 191 then .fixstr (b - 160)
  else if b = 192 then .mnil
  else if b = 193 then .reserved
  else if b = 194 then .mfalse
  else if b = 195 then .mtrue
  else if b ≤ 198 then .bin
  else if b ≤ 201 then .ext
  else if b ≤ 203 then .float
  else if b = 204 then .uintN 1
  else if b = 205 then .uintN 2
  else if b = 206 then .uintN 4
  else if b = 207 then .uintN 8
  else if b = 208 then .sintN 1
  else if b = 209 then .sintN 2
  else if b = 210 then .sintN 4
  else if b = 211 then .sintN 8
  else if b ≤ 216 then .fixext
  else if b = 217 then .strN 1
  else if b = 218 then .strN 2
  else if b = 219 then .strN 4
  else if b = 220 then .arrN 2
  else if b = 221 then .arrN 4
  else if b = 222 then .mapN 2
  else .mapN 4

/-- A negative fixint byte (224-255) decodes to `b - 256`; every other
byte dispatches through `marker`.  Split out so the decoder can match
on the classification. -/
def isNegFix (b : Nat) : Bool := 224 ≤ b

mutual

/-- Decode one MessagePack value from the front of the buffer,
returning it with the remaining bytes. -/
def decodeOne : Nat → List Nat → Except (List Char) (Json × List Nat)
  | 0, _ => .error "recursion limit reached".data
  | _ + 1, [] => .error "unexpected end of input".data
  | f + 1, b :: s =>
    if isNegFix b then .ok (.int ((b : Int) - 256), s)
    else
      match marker b with
      | .posfix n => .ok (.int n, s)
      | .fixmap n => decodeMapEntries f n [] s
      | .fixarr n => decodeArrayElems f n [] s
      | .fixstr n => decodeStrPayload n s
      | .mnil => .ok (.null, s)
      | .reserved => .error "reserved marker".data
      | .mfalse => .ok (.bool false, s)
      | .mtrue => .ok (.bool true, s)
      | .bin => .error "invalid type: binary".data
      | .ext => .error "invalid type: ext".data
      | .float => .error "float is outside this model".data
      | .uintN k => do
        let (bs, r) ← expectBytes k s
        .ok (.int (beVal bs), r)
      | .sintN k => do
        let (bs, r) ← expectBytes k s
        .ok (.int (sintOfBytes k bs), r)
      | .fixext => .error "invalid type: fixext".data
      | .strN k => do
        let (bs, r) ← expectBytes k s
        decodeStrPayload (beVal bs) r
      | .arrN k => do
        let (bs, r) ← expectBytes k s
        decodeArrayElems f (beVal bs) [] r
      | .mapN k => do
        let (bs, r) ← expectBytes k s
        decodeMapEntries f (beVal bs) [] r

/-- Decode `c` array elements, accumulating in reverse. -/
def decodeArrayElems : Nat → Nat → List Json → List Nat → Except (List Char) (Json × List Nat)
  | 0, _, _, _ => .error "recursion limit reached".data
  | _ + 1, 0, acc, s => .ok (.arr acc.reverse, s)
  | f + 1, c + 1, acc, s => do
    let (v, s') ← decodeOne f s
    decodeArrayElems f c (v :: acc) s'

/-- Decode `c` map entries, inserting each into the `BTreeMap` as the
serde_json Value visitor does; a non-string key is rejected. -/
def decodeMapEntries : Nat → Nat → List (List Char × Json) → List Nat → Except (List Char) (Json × List Nat)
  | 0, _, _, _ => .error "recursion limit reached".data
  | _ + 1, 0, acc, s => .ok (.obj acc, s)
  | f + 1, c + 1, acc, s => do
    let (k, s1) ← decodeOne f s
    match k with
    | .str ks => do
      let (v, s2) ← decodeOne f s1
      decodeMapEntries f c (mapInsert ks v acc) s2
    | _ => .error "invalid type: map key is not a string".data

end

/-- Embeds `rmp_serde::from_slice` (src/main.rs line 167): decode one
value from the front of the buffer, ignore anything after it. -/
def from_slice (s : List Nat) : Except (List Char) Json :=
  (decodeOne (4 * s.length + 4) s).map Prod.fst

/-! ## JSON pretty printing: serde_json::to_string_pretty

The PrettyFormatter used by `to_string_pretty` (src/main.rs line 169)
indents with two spaces, prints `[]` and `\x7b\x7d` for empty
containers, and otherwise puts every element on its own line.  Object
entries are printed in the stored (sorted) order of the map. -/

/-- Decimal digit character. -/
def digitChar (n : Nat) : Char := Char.ofNat (48 + n)

/-- Decimal digits of `n`, most significant first (`f` is fuel, enough
whenever `n < 10 ^ f`). -/
def natPr : Nat → Nat → List Char
  | 0, _ => []
  | f + 1, n =>
    if n < 10 then [digitChar n]
    else natPr f (n / 10) ++ [digitChar (n % 10)]

/-- Decimal printing of a `u64`-ranged natural (itoa). -/
def natPrint (n : Nat) : List Char := natPr 30 n

/-- Decimal printing of an integer (itoa). -/
def intPrint (n : Int) : List Char :=
  if n < 0 then '-' :: natPrint (-n).toNat else natPrint n.toNat

/-- serde_json string escaping of one character: quote and backslash,
short escapes for the common control characters, `\u00xx` for the
rest of the control range, everything else verbatim. -/
def escapeChar (c : Char) : List Char :=
  if c = '"' then ['\\', '"']
  else if c = '\\' then ['\\', '\\']
  else if c.toNat = 8 then ['\\', 'b']
  else if c.toNat = 9 then ['\\', 't']
  else if c.toNat = 10 then ['\\', 'n']
  else if c.toNat = 12 then ['\\', 'f']
  else if c.toNat = 13 then ['\\', 'r']
  else if c.toNat < 32 then
    ['\\', 'u', '0', '0', hexDigitLower (c.toNat / 16), hexDigitLower (c.toNat % 16)]
  else [c]

/-- Escaped form of a string body. -/
def escString : List Char → List Char
  | [] => []
  | c :: cs => escapeChar c ++ escString cs

/-- A JSON string literal: quotes around the escaped body. -/
def quoteString (s : List Char) : List Char :=
  '"' :: escString s ++ ['"']

/-- Newline followed by the two-space indentation of `lvl`. -/
def nlIndent (lvl : Nat) : List Char :=
  '\n' :: List.replicate (2 * lvl) ' '

mutual

/-- Pretty printing at indentation level `lvl`, exactly as serde_json
PrettyFormatter with the default two-space indent renders a value. -/
def prettyAt : Nat → Json → List Char
  | _, .null => "null".data
  | _, .bool b => if b then "true".data else "false".data
  | _, .int n => intPrint n
  | _, .str s => quoteString s
  | _, .arr [] => "[]".data
  | lvl, .arr (x :: xs) =>
    '[' :: (nlIndent (lvl + 1) ++ prettyAt (lvl + 1) x ++ prettyArr (lvl + 1) xs)
      ++ nlIndent lvl ++ [']']
  | _, .obj [] => "\x7b\x7d".data
  | lvl, .obj ((k, v) :: kvs) =>
    '\x7b' :: (nlIndent (lvl + 1) ++ quoteString k ++ ':' :: ' ' :: prettyAt (lvl + 1) v
      ++ prettyObjEntries (lvl + 1) kvs) ++ nlIndent lvl ++ ['\x7d']

/-- Remaining array elements, each preceded by a comma and a fresh
indented line. -/
def prettyArr : Nat → List Json → List Char
  | _, [] => []
  | lvl, x :: xs => ',' :: (nlIndent lvl ++ prettyAt lvl x) ++ prettyArr lvl xs

/-- Remaining object entries, in stored order, each preceded by a comma
and a fresh indented line. -/
def prettyObjEntries : Nat → List (List Char × Json) → List Char
  | _, [] => []
  | lvl, (k, v) :: kvs =>
    ',' :: (nlIndent lvl ++ quoteString k ++ ':' :: ' ' :: prettyAt lvl v)
      ++ prettyObjEntries lvl kvs

end

/-- The full pretty-printed text of a value (top level, indent 0). -/
def prettyPrint (v : Json) : List Char := prettyAt 0 v

/-- Embeds `serde_json::to_string_pretty` (src/main.rs line 169): for a
serde_json value serialization cannot fail (the writer is an in-memory
string and every variant is printable), so the result is always `ok`;
the `Except` shape mirrors the `Result` the source handles. -/
def to_string_pretty (v : Json) : Except (List Char) (List Char) :=
  .ok (prettyPrint v)

/-! ## JSON parsing: serde_json::from_str (integer fragment)

Whitespace is space, tab, newline and carriage return.  Strings accept
the serde_json escapes, including surrogate pairs in `\u` escapes, and
reject raw control characters and lone surrogates.  Numeric literals
with a fraction or exponent part, a negative zero, or a value outside
the `i64`/`u64` ranges are floats in serde_json and are outside this
model: the embedded parser rejects them (see the module docstring).
Anything after the top-level value except whitespace is rejected.  The
fuel argument is a termination artifact: `parseJson` supplies enough
for every input the embedded grammar accepts. -/

/-- Skip JSON whitespace. -/
def skipWs : List Char → List Char
  | [] => []
  | c :: r =>
    if c = ' ' ∨ c = '\t' ∨ c = '\n' ∨ c = '\r' then skipWs r else c :: r

/-- Value of a digit string, most significant first. -/
def digitsVal (ds : List Char) : Nat :=
  ds.foldl (fun a c => a * 10 + (c.toNat - 48)) 0

/-- Parse the absolute integer part of a numeric literal: `0`, or a
nonzero leading digit followed by digits; a leading zero followed by a
digit is rejected (serde_json InvalidNumber), and a following `.`, `e`
or `E` marks a float literal, outside this model. -/
def parseNumAbs : List Char → Except (List Char) (Nat × List Char)
  | [] => .error "expected digit".data
  | c :: r =>
    if c = '0' then
      match r with
      | [] => .ok (0, [])
      | c' :: _ =>
        if c'.isDigit then .error "invalid number: leading zero".data
        else if c' = '.' ∨ c' = 'e' ∨ c' = 'E' then
          .error "float literal, outside this model".data
        else .ok (0, r)
    else if c.isDigit then
      match r.dropWhile Char.isDigit with
      | c' :: rest' =>
        if c' = '.' ∨ c' = 'e' ∨ c' = 'E' then
          .error "float literal, outside this model".data
        else .ok (digitsVal (c :: r.takeWhile Char.isDigit), c' :: rest')
      | [] => .ok (digitsVal (c :: r.takeWhile Char.isDigit), [])
    else .error "expected digit".data

/-- Parse a numeric literal (integer fragment; a leading `-` with
absolute value zero or beyond the `i64` range, or an absolute value
beyond the `u64` range, is a float in serde_json, outside this model). -/
def parseNumber (s : List Char) : Except (List Char) (Json × List Char) :=
  match s with
  | '-' :: r => do
    let (m, rest) ← parseNumAbs r
    if m = 0 then .error "negative zero is a float, outside this model".data
    else if m ≤ 2 ^ 63 then .ok (.int (-(m : Int)), rest)
    else .error "integer below the i64 range, outside this model".data
  | t => do
    let (m, rest) ← parseNumAbs t
    if m < 2 ^ 64 then .ok (.int (m : Int), rest)
    else .error "integer above the u64 range, outside this model".data

/-- Four hex digits of a `\u` escape: the decoded code unit and the
rest of the input; `invalid hex escape` on a non-digit, `unexpected end
of hex escape` on input shorter than four characters. -/
def hexQuad : List Char → Except (List Char) (Nat × List Char)
  | h1 :: h2 :: h3 :: h4 :: r =>
    match hexVal h1, hexVal h2, hexVal h3, hexVal h4 with
    | some d1, some d2, some d3, some d4 =>
      .ok (((d1 * 16 + d2) * 16 + d3) * 16 + d4, r)
    | _, _, _, _ => .error "invalid hex escape".data
  | _ => .error "unexpected end of hex escape".data

/-- The second `\uXXXX` escape of a surrogate pair: a `\u` introducer
followed by four hex digits. -/
def lowSurrogate : List Char → Except (List Char) (Nat × List Char)
  | '\\' :: 'u' :: r => hexQuad r
  | _ => .error "unexpected end of hex escape".data

/-- Parse a string body after the opening quote, returning the decoded
content and the input after the closing quote.  The fuel argument is a
termination artifact (the recursion continues on input returned by
`hexQuad`, which structural recursion does not see); callers pass the
input length plus one, enough fuel for every input. -/
def parseStringBody : Nat → List Char → Except (List Char) (List Char × List Char)
  | 0, _ => .error "recursion limit exceeded".data
  | _ + 1, [] => .error "unterminated string".data
  | f + 1, c :: r =>
    if c = '"' then .ok ([], r)
    else if c = '\\' then
      match r with
      | [] => .error "unterminated string".data
      | e :: r2 =>
        if e = '"' then (parseStringBody f r2).map fun p => ('"' :: p.1, p.2)
        else if e = '\\' then (parseStringBody f r2).map fun p => ('\\' :: p.1, p.2)
        else if e = '/' then (parseStringBody f r2).map fun p => ('/' :: p.1, p.2)
        else if e = 'b' then (parseStringBody f r2).map fun p => (Char.ofNat 8 :: p.1, p.2)
        else if e = 'f' then (parseStringBody f r2).map fun p => (Char.ofNat 12 :: p.1, p.2)
        else if e = 'n' then (parseStringBody f r2).map fun p => ('\n' :: p.1, p.2)
        else if e = 'r' then (parseStringBody f r2).map fun p => (Char.ofNat 13 :: p.1, p.2)
        else if e = 't' then (parseStringBody f r2).map fun p => ('\t' :: p.1, p.2)
        else if e = 'u' then
          match hexQuad r2 with
          | .error msg => .error msg
          | .ok (n, r3) =>
            if 55296 ≤ n ∧ n < 56320 then
              match lowSurrogate r3 with
              | .error msg => .error msg
              | .ok (n2, r4) =>
                if 56320 ≤ n2 ∧ n2 < 57344 then
                  (parseStringBody f r4).map fun p =>
                    (Char.ofNat (65536 + (n - 55296) * 1024 + (n2 - 56320)) :: p.1, p.2)
                else .error "lone leading surrogate".data
            else if 56320 ≤ n ∧ n < 57344 then .error "lone trailing surrogate".data
            else (parseStringBody f r3).map fun p => (Char.ofNat n :: p.1, p.2)
        else .error "invalid escape".data
    else if c.toNat < 32 then .error "control character in string".data
    else (parseStringBody f r).map fun p => (c :: p.1, p.2)

mutual

/-- Parse one JSON value after skipping whitespace. -/
def parseValue : Nat → List Char → Except (List Char) (Json × List Char)
  | 0, _ => .error "recursion limit exceeded".data
  | f + 1, s =>
    match skipWs s with
    | [] => .error "unexpected end of input".data
    | c :: r =>
      if c = 'n' then
        match r with
        | 'u' :: 'l' :: 'l' :: rest => .ok (.null, rest)
        | _ => .error "expected ident".data
      else if c = 't' then
        match r with
        | 'r' :: 'u' :: 'e' :: rest => .ok (.bool true, rest)
        | _ => .error "expected ident".data
      else if c = 'f' then
        match r with
        | 'a' :: 'l' :: 's' :: 'e' :: rest => .ok (.bool false, rest)
        | _ => .error "expected ident".data
      else if c = '"' then
        (parseStringBody (r.length + 1) r).map fun p => (.str p.1, p.2)
      else if c = '[' then
        match skipWs r with
        | ']' :: rest => .ok (.arr [], rest)
        | _ => parseArrayElems f [] r
      else if c = '\x7b' then
        match skipWs r with
        | '\x7d' :: rest => .ok (.obj [], rest)
        | _ => parseObjElems f [] r
      else if c = '-' ∨ c.isDigit then parseNumber (c :: r)
      else .error "expected value".data

/-- Parse the elements of a non-empty array after the opening bracket,
accumulating in reverse. -/
def parseArrayElems : Nat → List Json → List Char → Except (List Char) (Json × List Char)
  | 0, _, _ => .error "recursion limit exceeded".data
  | f + 1, acc, s => do
    let (v, s1) ← parseValue f s
    match skipWs s1 with
    | ',' :: s2 => parseArrayElems f (v :: acc) s2
    | ']' :: s2 => .ok (.arr (v :: acc).reverse, s2)
    | _ => .error "expected comma or closing bracket".data

/-- Parse the entries of a non-empty object after the opening brace,
inserting each into the `BTreeMap` (last write wins). -/
def parseObjElems : Nat → List (List Char × Json) → List Char → Except (List Char) (Json × List Char)
  | 0, _, _ => .error "recursion limit exceeded".data
  | f + 1, acc, s =>
    match skipWs s with
    | '"' :: r => do
      let (k, s1) ← parseStringBody (r.length + 1) r
      match skipWs s1 with
      | ':' :: s2 => do
        let (v, s3) ← parseValue f s2
        match skipWs s3 with
        | ',' :: s4 => parseObjElems f (mapInsert k v acc) s4
        | '\x7d' :: s4 => .ok (.obj (mapInsert k v acc), s4)
        | _ => .error "expected comma or closing brace".data
      | _ => .error "expected colon".data
    | _ => .error "key must be a string".data

end

/-- Embeds `serde_json::from_str` (src/main.rs line 153): one value,
then only whitespace up to the end of input. -/
def parseJson (s : List Char) : Except (List Char) Json :=
  match parseValue (s.length + 1) s with
  | .ok (v, rest) =>
    match skipWs rest with
    | [] => .ok v
    | _ => .error "trailing characters".data
  | .error e => .error e

/-! ## The conversion orchestrator (src/main.rs lines 152-175) -/

/-- Models `rmp_serde::to_vec` on a serde_json value: the encoding of a
JSON-originated value cannot fail (the writer is an in-memory vector
and every variant of the value model is representable), so the result
is always `ok`; the `Except` shape mirrors the `Result` the source
handles with `map_err`. -/
def to_vec (v : Json) : Except (List Char) (List Nat) :=
  .ok (encode v)

/-- Embeds `json_to_messagepack` (src/main.rs lines 152-158): parse the
JSON text, serialize to MessagePack, base64-encode; each stage failure
is labelled and returned at once. -/
def json_to_messagepack (json_str : List Char) : Except (List Char) (List Char) := do
  let json_value ← (parseJson json_str).mapError ("Failed to parse JSON: ".data ++ ·)
  let messagepack ← (to_vec json_value).mapError ("Failed to serialize to MessagePack: ".data ++ ·)
  .ok (base64Encode messagepack)

/-- The transport stage of `messagepack_to_json` (src/main.rs lines
161-165): hex decoding when `is_hex` accepts every character, base64
decoding otherwise, each with its stage label. -/
def transportDecode (encoded_str : List Char) : Except (List Char) (List Nat) :=
  if is_hex encoded_str then
    (hexDecode encoded_str).mapError ("Failed to decode Hex: ".data ++ ·)
  else
    (base64Decode encoded_str).mapError ("Failed to decode Base64: ".data ++ ·)

/-- Embeds `messagepack_to_json` (src/main.rs lines 160-171): decode the
transport (hex when every character is a hex digit, base64 otherwise),
deserialize one MessagePack value, pretty-print it; each stage failure
is labelled and returned at once. -/
def messagepack_to_json (encoded_str : List Char) : Except (List Char) (List Char) := do
  let messagepack ← transportDecode encoded_str
  let json_value ← (from_slice messagepack).mapError ("Failed to deserialize MessagePack: ".data ++ ·)
  (to_string_pretty json_value).mapError ("Failed to serialize to JSON: ".data ++ ·)

/-- The hex digit set named by the specification: `0`-`9` (scalar
values 48-57), `a`-`f` (97-102), `A`-`F` (65-70), case-insensitive.
Stated independently of `toDigit16` so that the classification claim
compares the code against the spec wording. -/
def specHexDigit (c : Char) : Bool :=
  (48 ≤ c.toNat && c.toNat ≤ 57) || (97 ≤ c.toNat && c.toNat ≤ 102)
    || (65 ≤ c.toNat && c.toNat ≤ 70)

/-- The first character of the remaining input cannot extend a numeric
literal: no digit, no fraction dot, no exponent letter. -/
def headSafe : List Char → Prop
  | [] => True
  | c :: _ => c.isDigit = false ∧ c ≠ '.' ∧ c ≠ 'e' ∧ c ≠ 'E'

/-- Characters that can start a printed JSON value. -/
def startChar (c : Char) : Bool :=
  c = 'n' || c = 't' || c = 'f' || c = '"' || c = '[' || c = '\x7b' || c = '-' || c.isDigit

/-! # Theorems -/

/-- Structural induction principle for the nested inductive `Json`,
with membership hypotheses for containers. -/
theorem Json.inductionOn {P : Json → Prop}
    (hnull : P .null)
    (hbool : ∀ b, P (.bool b))
    (hint : ∀ n, P (.int n))
    (hstr : ∀ s, P (.str s))
    (harr : ∀ xs, (∀ x ∈ xs, P x) → P (.arr xs))
    (hobj : ∀ kvs, (∀ kv ∈ kvs, P kv.2) → P (.obj kvs)) :
    ∀ v, P v :=
  fun v =>
    Json.rec (motive_1 := P)
      (motive_2 := fun xs => ∀ x ∈ xs, P x)
      (motive_3 := fun kvs => ∀ kv ∈ kvs, P kv.2)
      (motive_4 := fun kv => P kv.2)
      hnull hbool hint hstr harr hobj
      (fun x hx => absurd hx (List.not_mem_nil x))
      (fun _ _ hx hxs y hy => by
        rcases List.mem_cons.mp hy with h | h
        · exact h ▸ hx
        · exact hxs y h)
      (fun kv hkv => absurd hkv (List.not_mem_nil kv))
      (fun _ _ hkv hkvs e he => by
        rcases List.mem_cons.mp he with h | h
        · exact h ▸ hkv
        · exact hkvs e h)
      (fun _ _ hv => hv)
      v

/-! ## The transport classifier -/

theorem char_toNat_lt_u32 (c : Char) : c.toNat < 2 ^ 32 := by
  have := c.val.toNat_lt
  simpa [Char.toNat] using this

/-- `toDigit16` succeeds exactly on the spec hex-digit set. -/
theorem toDigit16_isSome_eq (c : Char) : (toDigit16 c).isSome = specHexDigit c := by
  have h32 := char_toNat_lt_u32 c
  rw [Bool.eq_iff_iff]
  rw [show (specHexDigit c = true) ↔
      (((48 ≤ c.toNat ∧ c.toNat ≤ 57) ∨ (97 ≤ c.toNat ∧ c.toNat ≤ 102))
        ∨ (65 ≤ c.toNat ∧ c.toNat ≤ 70)) by
    simp only [specHexDigit, Bool.or_eq_true, Bool.and_eq_true, decide_eq_true_eq]]
  by_cases hbit : c.toNat / 32 % 2 = 1
  · simp only [toDigit16, if_pos hbit]
    split
    · rename_i hd
      simp only [Option.isSome_some, true_iff]
      omega
    · split
      · rename_i hd hd2
        simp only [Option.isSome_some, true_iff]
        omega
      · rename_i hd hd2
        simp only [Option.isSome_none, Bool.false_eq_true, false_iff]
        omega
  · simp only [toDigit16, if_neg hbit]
    split
    · rename_i hd
      simp only [Option.isSome_some, true_iff]
      omega
    · split
      · rename_i hd hd2
        simp only [Option.isSome_some, true_iff]
        omega
      · rename_i hd hd2
        simp only [Option.isSome_none, Bool.false_eq_true, false_iff]
        omega

/-- `is_hex` accepts exactly the all-hex-digit strings. -/
theorem is_hex_iff_spec (s : List Char) :
    is_hex s = true ↔ ∀ c ∈ s, specHexDigit c = true := by
  simp only [is_hex, List.all_eq_true, toDigit16_isSome_eq]

/-- C2: `messagepack_to_json` dispatches to hexadecimal decoding if and
only if every character of the input is a hex digit (`0`-`9`, `a`-`f`,
`A`-`F`); any other string goes to the base64 decoder, and an all-hex
string is never handed to the base64 decoder (its transport stage is
exactly the labelled hex decoder). -/
theorem transport_classification (s : List Char) :
    (is_hex s = true ↔ ∀ c ∈ s, specHexDigit c = true)
    ∧ (is_hex s = true →
        transportDecode s = (hexDecode s).mapError ("Failed to decode Hex: ".data ++ ·))
    ∧ (is_hex s = false →
        transportDecode s = (base64Decode s).mapError ("Failed to decode Base64: ".data ++ ·)) := by
  refine ⟨is_hex_iff_spec s, fun h => ?_, fun h => ?_⟩
  · simp [transportDecode, h]
  · simp [transportDecode, h]

/-- Witness for C2 at concrete inputs: `0f` is classified as hex and
`xyz=` as base64. -/
theorem transport_classification_witness :
    (is_hex "0f".data = true ↔ ∀ c ∈ "0f".data, specHexDigit c = true)
    ∧ transportDecode "0f".data
        = (hexDecode "0f".data).mapError ("Failed to decode Hex: ".data ++ ·)
    ∧ transportDecode "xyz=".data
        = (base64Decode "xyz=".data).mapError ("Failed to decode Base64: ".data ++ ·) :=
  ⟨(transport_classification "0f".data).1,
   (transport_classification "0f".data).2.1 (by decide),
   (transport_classification "xyz=".data).2.2 (by decide)⟩

/-! ## Orchestrator stage lemmas -/

/-- A parse failure is returned at once, with the parse stage label. -/
theorem jtm_parse_err {s e} (hp : parseJson s = .error e) :
    json_to_messagepack s = .error ("Failed to parse JSON: ".data ++ e) := by
  simp [json_to_messagepack, hp, Except.mapError, Except.bind, Bind.bind]

/-- A parse success always reaches the final base64 encoding. -/
theorem jtm_parse_ok {s v} (hp : parseJson s = .ok v) :
    json_to_messagepack s = .ok (base64Encode (encode v)) := by
  simp [json_to_messagepack, hp, Except.mapError, Except.bind, Bind.bind, to_vec]

/-- A transport failure is returned at once (already labelled). -/
theorem mtj_transport_err {s e} (ht : transportDecode s = .error e) :
    messagepack_to_json s = .error e := by
  simp [messagepack_to_json, ht, Except.mapError, Except.bind, Bind.bind]

/-- A MessagePack decoding failure is returned at once, labelled. -/
theorem mtj_msgpack_err {s bs e} (ht : transportDecode s = .ok bs)
    (hf : from_slice bs = .error e) :
    messagepack_to_json s = .error ("Failed to deserialize MessagePack: ".data ++ e) := by
  simp [messagepack_to_json, ht, hf, Except.mapError, Except.bind, Bind.bind]

/-- Every success of `messagepack_to_json` is the pretty-printed form
of the value decoded from the transport-decoded bytes. -/
theorem mtj_ok_decomp {s out} (h : messagepack_to_json s = .ok out) :
    ∃ bs v, transportDecode s = .ok bs ∧ from_slice bs = .ok v ∧ out = prettyPrint v := by
  cases ht : transportDecode s with
  | error e => rw [mtj_transport_err ht] at h; cases h
  | ok bs =>
    cases hf : from_slice bs with
    | error e =>
      simp [messagepack_to_json, ht, hf, Except.mapError, Except.bind, Bind.bind] at h
    | ok v =>
      refine ⟨bs, v, rfl, hf, ?_⟩
      simp [messagepack_to_json, ht, hf, Except.mapError, Except.bind, Bind.bind,
        to_string_pretty] at h
      exact h.symm

/-- A transport-stage error carries the hex or the base64 label. -/
theorem transport_err_shape {s e} (h : transportDecode s = .error e) :
    "Failed to decode Hex: ".data <+: e ∨ "Failed to decode Base64: ".data <+: e := by
  unfold transportDecode at h
  split at h
  · cases hh : hexDecode s with
    | ok bs => rw [hh] at h; simp [Except.mapError] at h
    | error e0 =>
      rw [hh] at h
      simp only [Except.mapError, Except.error.injEq] at h
      exact Or.inl (h ▸ List.prefix_append _ _)
  · cases hh : base64Decode s with
    | ok bs => rw [hh] at h; simp [Except.mapError] at h
    | error e0 =>
      rw [hh] at h
      simp only [Except.mapError, Except.error.injEq] at h
      exact Or.inr (h ▸ List.prefix_append _ _)

/-- C3: every error of the two public operations carries the label of
its failing stage, the first failing stage is returned at once (no
later stage runs: the returned error is exactly the labelled error of
that stage), and on failure no success value exists (the result is the
`error` constructor). -/
theorem error_stage_labels :
    (∀ s e, json_to_messagepack s = .error e →
      "Failed to parse JSON: ".data <+: e
        ∨ "Failed to serialize to MessagePack: ".data <+: e)
    ∧ (∀ s e, messagepack_to_json s = .error e →
      "Failed to decode Hex: ".data <+: e ∨ "Failed to decode Base64: ".data <+: e
        ∨ "Failed to deserialize MessagePack: ".data <+: e
        ∨ "Failed to serialize to JSON: ".data <+: e)
    ∧ (∀ s e, parseJson s = .error e →
        json_to_messagepack s = .error ("Failed to parse JSON: ".data ++ e))
    ∧ (∀ s e, transportDecode s = .error e →
        messagepack_to_json s = .error e
          ∧ ("Failed to decode Hex: ".data <+: e ∨ "Failed to decode Base64: ".data <+: e))
    ∧ (∀ s bs e, transportDecode s = .ok bs → from_slice bs = .error e →
        messagepack_to_json s = .error ("Failed to deserialize MessagePack: ".data ++ e)) := by
  refine ⟨fun s e h => ?_, fun s e h => ?_,
    fun s e hp => jtm_parse_err hp,
    fun s e ht => ⟨mtj_transport_err ht, transport_err_shape ht⟩,
    fun s bs e ht hf => mtj_msgpack_err ht hf⟩
  · cases hp : parseJson s with
    | ok v => rw [jtm_parse_ok hp] at h; cases h
    | error e0 =>
      rw [jtm_parse_err hp] at h
      injection h with h
      exact Or.inl (h ▸ List.prefix_append _ _)
  · cases ht : transportDecode s with
    | error e0 =>
      rw [mtj_transport_err ht] at h
      injection h with h
      rcases transport_err_shape ht with hh | hh
      · exact Or.inl (h ▸ hh)
      · exact Or.inr (Or.inl (h ▸ hh))
    | ok bs =>
      cases hf : from_slice bs with
      | error e0 =>
        rw [mtj_msgpack_err ht hf] at h
        injection h with h
        exact Or.inr (Or.inr (Or.inl (h ▸ List.prefix_append _ _)))
      | ok v =>
        simp [messagepack_to_json, ht, hf, Except.mapError, Except.bind, Bind.bind,
          to_string_pretty] at h

/-- Witness for C3: a malformed JSON input and a malformed base64 input,
with the labelled errors the theorem predicts. -/
theorem error_stage_labels_witness :
    json_to_messagepack "nope".data
      = .error ("Failed to parse JSON: ".data ++ "expected ident".data)
    ∧ ("Failed to parse JSON: ".data
          <+: ("Failed to parse JSON: ".data ++ "expected ident".data)
        ∨ "Failed to serialize to MessagePack: ".data
          <+: ("Failed to parse JSON: ".data ++ "expected ident".data)) := by
  have h1 := error_stage_labels.2.2.1 "nope".data "expected ident".data rfl
  exact ⟨h1, error_stage_labels.1 _ _ h1⟩

/-- C6: the MessagePack serialization stage of `json_to_messagepack`
never fails: a parse success always yields an overall success, every
error is exactly the labelled parse-stage error, and no error ever
carries the serialize-stage label. -/
theorem encode_stage_never_fails :
    (∀ s v, parseJson s = .ok v →
      json_to_messagepack s = .ok (base64Encode (encode v)))
    ∧ (∀ s e, json_to_messagepack s = .error e →
      ∃ e0, parseJson s = .error e0 ∧ e = "Failed to parse JSON: ".data ++ e0)
    ∧ (∀ s e, json_to_messagepack s
        ≠ .error ("Failed to serialize to MessagePack: ".data ++ e)) := by
  have key : ∀ s e, json_to_messagepack s = .error e →
      ∃ e0, parseJson s = .error e0 ∧ e = "Failed to parse JSON: ".data ++ e0 := by
    intro s e h
    cases hp : parseJson s with
    | ok v => rw [jtm_parse_ok hp] at h; cases h
    | error e0 =>
      rw [jtm_parse_err hp] at h
      injection h with h
      exact ⟨e0, rfl, h.symm⟩
  refine ⟨fun s v hp => jtm_parse_ok hp, key, fun s e h => ?_⟩
  obtain ⟨e0, _, heq⟩ := key s _ h
  have h10 := congrArg (fun l => l[10]?) heq
  simp [String.data] at h10

/-- Witness for C6: parsing `7` succeeds and the whole conversion
succeeds with it. -/
theorem encode_stage_never_fails_witness :
    json_to_messagepack "7".data = .ok (base64Encode (encode (Json.int 7))) :=
  encode_stage_never_fails.1 "7".data (Json.int 7) rfl

/-- C7: a non-empty all-hex-digit input of odd length fails in the
transport stage with the labelled hex odd-length error; no later stage
runs (the result is exactly that error). -/
theorem odd_length_hex_fails (s : List Char) (_h0 : s ≠ []) (h1 : is_hex s = true)
    (h2 : s.length % 2 = 1) :
    messagepack_to_json s
      = .error ("Failed to decode Hex: ".data ++ "Odd number of digits".data) := by
  apply mtj_transport_err
  simp [transportDecode, h1, hexDecode, h2, Except.mapError]

/-- Witness for C7 at the concrete input `abc`. -/
theorem odd_length_hex_fails_witness :
    messagepack_to_json "abc".data
      = .error ("Failed to decode Hex: ".data ++ "Odd number of digits".data) :=
  odd_length_hex_fails "abc".data (by decide) (by decide) (by decide)

/-- C8: the exact empty-object round trip: `\x7b\x7d` converts to the
base64 MessagePack text `gA==`, and converting that back yields exactly
the two-character text `\x7b\x7d`. -/
theorem empty_object_exact_roundtrip :
    json_to_messagepack "\x7b\x7d".data = .ok "gA==".data
    ∧ messagepack_to_json "gA==".data = .ok "\x7b\x7d".data :=
  ⟨rfl, rfl⟩

/-- C9: every success of `messagepack_to_json` is the two-space-indent
pretty printing (`prettyPrint`, the serde_json PrettyFormatter) of the
value produced by the MessagePack decoding stage, whose object entries
it renders in their stored order. -/
theorem success_output_pretty_printed (s out : List Char)
    (h : messagepack_to_json s = .ok out) :
    ∃ bs v, transportDecode s = .ok bs ∧ from_slice bs = .ok v ∧ out = prettyPrint v :=
  mtj_ok_decomp h

/-- Witness for C9 at the concrete input `gA==`. -/
theorem success_output_pretty_printed_witness :
    ∃ bs v, transportDecode "gA==".data = .ok bs ∧ from_slice bs = .ok v
      ∧ "\x7b\x7d".data = prettyPrint v :=
  success_output_pretty_printed "gA==".data "\x7b\x7d".data rfl

/-- C10: the empty input is vacuously classified as hex, hex-decodes to
the empty byte string, and then fails in the MessagePack
deserialization stage (not the transport stage). -/
theorem empty_input_msgpack_stage :
    is_hex [] = true
    ∧ hexDecode [] = .ok []
    ∧ ∃ e, messagepack_to_json []
        = .error ("Failed to deserialize MessagePack: ".data ++ e) :=
  ⟨rfl, rfl, "unexpected end of input".data, rfl⟩

/-- C4: the concrete example: the Alice object encodes to the base64
encoding of the MessagePack bytes with the expected hex rendering, and
converting that hex text back gives a JSON text that parses to the very
value the original text parses to. -/
theorem alice_concrete_example :
    (∃ bs, json_to_messagepack
        "\x7b\"name\":\"Alice\",\"age\":30,\"city\":\"Wonderland\"\x7d".data
        = .ok (base64Encode bs)
      ∧ hexEncode bs
        = "83a36167651ea463697479aa576f6e6465726c616e64a46e616d65a5416c696365".data)
    ∧ (∃ res v, messagepack_to_json
        "83a36167651ea463697479aa576f6e6465726c616e64a46e616d65a5416c696365".data
        = .ok res
      ∧ parseJson res = .ok v
      ∧ parseJson "\x7b\"name\":\"Alice\",\"age\":30,\"city\":\"Wonderland\"\x7d".data
        = .ok v) :=
  ⟨⟨encode (Json.obj [("age".data, .int 30), ("city".data, .str "Wonderland".data),
      ("name".data, .str "Alice".data)]), rfl, rfl⟩,
   ⟨prettyPrint (Json.obj [("age".data, .int 30), ("city".data, .str "Wonderland".data),
      ("name".data, .str "Alice".data)]),
    Json.obj [("age".data, .int 30), ("city".data, .str "Wonderland".data),
      ("name".data, .str "Alice".data)], rfl, rfl, rfl⟩⟩

/-! ## MessagePack decoder: prefix extension and fuel monotonicity -/


theorem readN_ext {k : Nat} {s bs rem : List Nat} (t : List Nat)
    (h : readN k s = some (bs, rem)) : readN k (s ++ t) = some (bs, rem ++ t) := by
  induction k generalizing s bs rem with
  | zero =>
    simp only [readN, Option.some.injEq, Prod.mk.injEq] at h
    simp [readN, h.1, h.2]
  | succ k ih =>
    match s with
    | [] => simp [readN] at h
    | b :: s' =>
      simp only [readN] at h ⊢
      cases hr : readN k s' with
      | none => rw [hr] at h; simp at h
      | some p =>
        obtain ⟨p1, p2⟩ := p
        rw [hr] at h
        simp only [Option.some.injEq, Prod.mk.injEq] at h
        rw [show readN k (s'.append t) = some (p1, p2 ++ t) from ih hr]
        simp_all

theorem expectBytes_ext {k : Nat} {s bs rem : List Nat} (t : List Nat)
    (h : expectBytes k s = .ok (bs, rem)) : expectBytes k (s ++ t) = .ok (bs, rem ++ t) := by
  unfold expectBytes at h ⊢
  cases hr : readN k s with
  | none => rw [hr] at h; cases h
  | some p =>
    obtain ⟨p1, p2⟩ := p
    rw [hr] at h
    simp only [Except.ok.injEq, Prod.mk.injEq] at h
    rw [readN_ext t (by rw [hr, h.1, h.2])]

theorem decodeStrPayload_ext {len : Nat} {s rem : List Nat} {v : Json} (t : List Nat)
    (h : decodeStrPayload len s = .ok (v, rem)) :
    decodeStrPayload len (s ++ t) = .ok (v, rem ++ t) := by
  unfold decodeStrPayload at h ⊢
  cases hr : expectBytes len s with
  | error e => rw [hr] at h; exact absurd h (by simp [Bind.bind, Except.bind])
  | ok p =>
    obtain ⟨payload, r⟩ := p
    rw [hr] at h
    rw [expectBytes_ext t hr]
    simp only [Bind.bind, Except.bind] at h ⊢
    cases hu : utf8Decode payload with
    | none => rw [hu] at h; simp at h
    | some cs =>
      rw [hu] at h
      simp only [Except.ok.injEq, Prod.mk.injEq] at h ⊢
      exact ⟨h.1, by rw [h.2]⟩

theorem decode_extmono (f : Nat) : ∀ g, f ≤ g →
    (∀ s v rem t, decodeOne f s = .ok (v, rem) →
      decodeOne g (s ++ t) = .ok (v, rem ++ t))
    ∧ (∀ c acc s v rem t, decodeArrayElems f c acc s = .ok (v, rem) →
      decodeArrayElems g c acc (s ++ t) = .ok (v, rem ++ t))
    ∧ (∀ c acc s v rem t, decodeMapEntries f c acc s = .ok (v, rem) →
      decodeMapEntries g c acc (s ++ t) = .ok (v, rem ++ t)) := by
  induction f with
  | zero =>
    refine fun g hg => ⟨fun s v rem t h => ?_, fun c acc s v rem t h => ?_,
      fun c acc s v rem t h => ?_⟩
    · simp [decodeOne] at h
    · simp [decodeArrayElems] at h
    · simp [decodeMapEntries] at h
  | succ f ih =>
    intro g hg
    obtain ⟨g, rfl⟩ : ∃ g', g = g' + 1 := ⟨g - 1, by omega⟩
    have hg' : f ≤ g := by omega
    refine ⟨fun s v rem t h => ?_, fun c acc s v rem t h => ?_,
      fun c acc s v rem t h => ?_⟩
    · match s with
      | [] => simp [decodeOne] at h
      | b :: s' =>
        rw [List.cons_append]
        simp only [decodeOne] at h ⊢
        by_cases hneg : isNegFix b
        · rw [if_pos hneg] at h ⊢
          simp only [Except.ok.injEq, Prod.mk.injEq] at h ⊢
          exact ⟨h.1, by rw [h.2]⟩
        · rw [if_neg hneg] at h ⊢
          cases hm : marker b with
          | posfix n =>
            rw [hm] at h
            simp only [Except.ok.injEq, Prod.mk.injEq] at h ⊢
            exact ⟨h.1, by rw [h.2]⟩
          | fixmap n => rw [hm] at h; exact (ih g hg').2.2 _ _ _ _ _ t h
          | fixarr n => rw [hm] at h; exact (ih g hg').2.1 _ _ _ _ _ t h
          | fixstr n => rw [hm] at h; exact decodeStrPayload_ext t h
          | mnil =>
            rw [hm] at h
            simp only [Except.ok.injEq, Prod.mk.injEq] at h ⊢
            exact ⟨h.1, by rw [h.2]⟩
          | reserved => rw [hm] at h; simp at h
          | mfalse =>
            rw [hm] at h
            simp only [Except.ok.injEq, Prod.mk.injEq] at h ⊢
            exact ⟨h.1, by rw [h.2]⟩
          | mtrue =>
            rw [hm] at h
            simp only [Except.ok.injEq, Prod.mk.injEq] at h ⊢
            exact ⟨h.1, by rw [h.2]⟩
          | bin => rw [hm] at h; simp at h
          | ext => rw [hm] at h; simp at h
          | float => rw [hm] at h; simp at h
          | fixext => rw [hm] at h; simp at h
          | uintN k =>
            rw [hm] at h
            simp only [Bind.bind, Except.bind] at h ⊢
            cases he : expectBytes k s' with
            | error e => rw [he] at h; simp at h
            | ok p =>
              obtain ⟨bs, r⟩ := p
              rw [he] at h
              rw [expectBytes_ext t he]
              simp only [Except.ok.injEq, Prod.mk.injEq] at h ⊢
              exact ⟨h.1, by rw [h.2]⟩
          | sintN k =>
            rw [hm] at h
            simp only [Bind.bind, Except.bind] at h ⊢
            cases he : expectBytes k s' with
            | error e => rw [he] at h; simp at h
            | ok p =>
              obtain ⟨bs, r⟩ := p
              rw [he] at h
              rw [expectBytes_ext t he]
              simp only [Except.ok.injEq, Prod.mk.injEq] at h ⊢
              exact ⟨h.1, by rw [h.2]⟩
          | strN k =>
            rw [hm] at h
            simp only [Bind.bind, Except.bind] at h ⊢
            cases he : expectBytes k s' with
            | error e => rw [he] at h; simp at h
            | ok p =>
              obtain ⟨bs, r⟩ := p
              rw [he] at h
              rw [expectBytes_ext t he]
              exact decodeStrPayload_ext t h
          | arrN k =>
            rw [hm] at h
            simp only [Bind.bind, Except.bind] at h ⊢
            cases he : expectBytes k s' with
            | error e => rw [he] at h; simp at h
            | ok p =>
              obtain ⟨bs, r⟩ := p
              rw [he] at h
              rw [expectBytes_ext t he]
              exact (ih g hg').2.1 _ _ _ _ _ t h
          | mapN k =>
            rw [hm] at h
            simp only [Bind.bind, Except.bind] at h ⊢
            cases he : expectBytes k s' with
            | error e => rw [he] at h; simp at h
            | ok p =>
              obtain ⟨bs, r⟩ := p
              rw [he] at h
              rw [expectBytes_ext t he]
              exact (ih g hg').2.2 _ _ _ _ _ t h
    · match c with
      | 0 =>
        simp only [decodeArrayElems, Except.ok.injEq, Prod.mk.injEq] at h ⊢
        exact ⟨h.1, by rw [h.2]⟩
      | c + 1 =>
        simp only [decodeArrayElems, Bind.bind, Except.bind] at h ⊢
        cases hd : decodeOne f s with
        | error e => rw [hd] at h; simp at h
        | ok p =>
          obtain ⟨v1, s1⟩ := p
          rw [hd] at h
          rw [(ih g hg').1 _ _ _ t hd]
          exact (ih g hg').2.1 _ _ _ _ _ t h
    · match c with
      | 0 =>
        simp only [decodeMapEntries, Except.ok.injEq, Prod.mk.injEq] at h ⊢
        exact ⟨h.1, by rw [h.2]⟩
      | c + 1 =>
        simp only [decodeMapEntries, Bind.bind, Except.bind] at h ⊢
        cases hd : decodeOne f s with
        | error e => rw [hd] at h; simp at h
        | ok p =>
          obtain ⟨k1, s1⟩ := p
          rw [hd] at h
          rw [(ih g hg').1 _ _ _ t hd]
          cases k1 with
          | str ks =>
            simp only [Bind.bind, Except.bind] at h ⊢
            cases hd2 : decodeOne f s1 with
            | error e => rw [hd2] at h; simp at h
            | ok p2 =>
              obtain ⟨v2, s2⟩ := p2
              rw [hd2] at h
              rw [(ih g hg').1 _ _ _ t hd2]
              exact (ih g hg').2.2 _ _ _ _ _ t h
          | null => simp at h
          | bool b => simp at h
          | int n => simp at h
          | arr xs => simp at h
          | obj kvs => simp at h

/-- C5: if a byte sequence begins with one complete MessagePack value
(the decoder accepts it, leaving the trailing bytes `rem`), then
`from_slice` decodes exactly that first value, both on the sequence
itself and with any further bytes appended: trailing bytes are ignored
and never change the decoded value or cause a failure. -/
theorem trailing_bytes_ignored (p t : List Nat) (v : Json) (rem : List Nat)
    (h : decodeOne (4 * p.length + 4) p = .ok (v, rem)) :
    from_slice p = .ok v ∧ from_slice (p ++ t) = .ok v := by
  constructor
  · simp [from_slice, h, Except.map]
  · have hle : 4 * p.length + 4 ≤ 4 * (p ++ t).length + 4 := by
      simp only [List.length_append]
      omega
    have hext := (decode_extmono _ _ hle).1 p v rem t h
    unfold from_slice
    rw [hext]
    rfl

/-- Witness for C5: the nil byte followed by a trailing byte. -/
theorem trailing_bytes_ignored_witness :
    from_slice [192] = .ok .null ∧ from_slice ([192] ++ [1]) = .ok .null :=
  trailing_bytes_ignored [192] [1] .null [] rfl

/-! ## Key order and map insertion -/


theorem char_eq_iff_toNat {a b : Char} : a = b ↔ a.toNat = b.toNat := by
  constructor
  · intro h; rw [h]
  · intro h
    exact Char.ext (UInt32.ext h)

theorem keyLt_irrefl (a : List Char) : keyLt a a = false := by
  induction a with
  | nil => rfl
  | cons c a ih => simp [keyLt, ih]

theorem keyLt_ne {a b : List Char} (h : keyLt a b = true) : a ≠ b := by
  intro he
  rw [he, keyLt_irrefl] at h
  cases h

theorem keyLt_asymm {a b : List Char} (h : keyLt a b = true) : keyLt b a = false := by
  induction a generalizing b with
  | nil =>
    cases b with
    | nil => simp [keyLt] at h
    | cons c b => rfl
  | cons c a ih =>
    cases b with
    | nil => simp [keyLt] at h
    | cons d b =>
      simp only [keyLt] at h ⊢
      by_cases h1 : c.toNat < d.toNat
      · rw [if_pos h1] at h
        rw [if_neg (by omega), if_pos h1]
      · rw [if_neg h1] at h
        by_cases h2 : d.toNat < c.toNat
        · rw [if_pos h2] at h; cases h
        · rw [if_neg h2] at h
          rw [if_neg h1, if_neg h2]
          exact ih h

theorem keyLt_trans {a b c : List Char} (h1 : keyLt a b = true) (h2 : keyLt b c = true) :
    keyLt a c = true := by
  induction a generalizing b c with
  | nil =>
    cases c with
    | nil =>
      cases b with
      | nil => exact h2
      | cons d b => simp [keyLt] at h2
    | cons e c => rfl
  | cons d a ih =>
    cases b with
    | nil => simp [keyLt] at h1
    | cons e b =>
      cases c with
      | nil => simp [keyLt] at h2
      | cons g c =>
        simp only [keyLt] at h1 h2 ⊢
        by_cases hde : d.toNat < e.toNat
        · by_cases heg : e.toNat < g.toNat
          · rw [if_pos (by omega)]
          · rw [if_neg heg] at h2
            by_cases hge : g.toNat < e.toNat
            · rw [if_pos hge] at h2; cases h2
            · have : e.toNat = g.toNat := by omega
              rw [if_pos (by omega)]
        · rw [if_neg hde] at h1
          by_cases hed : e.toNat < d.toNat
          · rw [if_pos hed] at h1; cases h1
          · rw [if_neg hed] at h1
            have hde' : d.toNat = e.toNat := by omega
            by_cases heg : e.toNat < g.toNat
            · rw [if_pos (by omega)]
            · rw [if_neg heg] at h2
              by_cases hge : g.toNat < e.toNat
              · rw [if_pos hge] at h2; cases h2
              · rw [if_neg hge] at h2
                rw [if_neg (show ¬ d.toNat < g.toNat by omega),
                  if_neg (show ¬ g.toNat < d.toNat by omega)]
                exact ih h1 h2

theorem keyLt_connex {a b : List Char} (h1 : keyLt a b = false) (h2 : a ≠ b) :
    keyLt b a = true := by
  induction a generalizing b with
  | nil =>
    cases b with
    | nil => exact absurd rfl h2
    | cons c b => simp [keyLt] at h1
  | cons c a ih =>
    cases b with
    | nil => rfl
    | cons d b =>
      simp only [keyLt] at h1 ⊢
      by_cases h3 : c.toNat < d.toNat
      · rw [if_pos h3] at h1; cases h1
      · rw [if_neg h3] at h1
        by_cases h4 : d.toNat < c.toNat
        · rw [if_pos h4]
        · rw [if_neg h4] at h1
          rw [if_neg (by omega), if_neg (by omega)]
          apply ih h1
          intro he
          apply h2
          have : c = d := char_eq_iff_toNat.mpr (by omega)
          rw [this, he]



theorem sorted_cons {e : List Char × Json} {l : List (List Char × Json)}
    (h : sortedKeys (e :: l) = true) :
    sortedKeys l = true ∧ ∀ x ∈ l, keyLt e.1 x.1 = true := by
  induction l generalizing e with
  | nil => exact ⟨rfl, by simp⟩
  | cons b l ih =>
    obtain ⟨e1, e2⟩ := e
    obtain ⟨b1, b2⟩ := b
    simp only [sortedKeys, Bool.and_eq_true] at h
    obtain ⟨h1, h2⟩ := h
    obtain ⟨ih1, ih2⟩ := ih h2
    refine ⟨h2, ?_⟩
    intro x hx
    rcases List.mem_cons.mp hx with hx | hx
    · rw [hx]; exact h1
    · exact keyLt_trans h1 (ih2 x hx)

theorem sorted_cons_intro {e : List Char × Json} {l : List (List Char × Json)}
    (h1 : sortedKeys l = true) (h2 : ∀ x ∈ l, keyLt e.1 x.1 = true) :
    sortedKeys (e :: l) = true := by
  cases l with
  | nil => rfl
  | cons b l =>
    obtain ⟨e1, e2⟩ := e
    obtain ⟨b1, b2⟩ := b
    simp only [sortedKeys, Bool.and_eq_true]
    exact ⟨h2 (b1, b2) (by simp), h1⟩

theorem sorted_append_mem_lt {acc post : List (List Char × Json)}
    {k : List Char} {v : Json}
    (h : sortedKeys (acc ++ (k, v) :: post) = true) :
    ∀ e ∈ acc, keyLt e.1 k = true := by
  induction acc with
  | nil => simp
  | cons a acc ih =>
    intro e he
    rw [List.cons_append] at h
    obtain ⟨h1, h2⟩ := sorted_cons h
    rcases List.mem_cons.mp he with he | he
    · rw [he]
      exact h2 (k, v) (by simp)
    · exact ih h1 e he

theorem mapInsert_append {acc : List (List Char × Json)} {k : List Char} {v : Json}
    (h : ∀ e ∈ acc, keyLt e.1 k = true) :
    mapInsert k v acc = acc ++ [(k, v)] := by
  induction acc with
  | nil => rfl
  | cons a acc ih =>
    obtain ⟨a1, a2⟩ := a
    have ha : keyLt a1 k = true := h (a1, a2) (by simp)
    simp only [mapInsert]
    rw [if_neg (by rw [keyLt_asymm ha]; simp), if_neg (Ne.symm (keyLt_ne ha))]
    rw [ih fun e he => h e (List.mem_cons_of_mem _ he)]
    rfl

theorem mapInsert_mem {kvs : List (List Char × Json)} {k : List Char} {v : Json}
    {x : List Char × Json} (hx : x ∈ mapInsert k v kvs) : x = (k, v) ∨ x ∈ kvs := by
  induction kvs with
  | nil => simpa [mapInsert] using hx
  | cons a kvs ih =>
    obtain ⟨a1, a2⟩ := a
    simp only [mapInsert] at hx
    by_cases h1 : keyLt k a1 = true
    · rw [if_pos h1] at hx
      rcases List.mem_cons.mp hx with hx | hx
      · exact Or.inl hx
      · exact Or.inr hx
    · rw [if_neg h1] at hx
      by_cases h2 : k = a1
      · rw [if_pos h2] at hx
        rcases List.mem_cons.mp hx with hx | hx
        · exact Or.inl hx
        · exact Or.inr (List.mem_cons_of_mem _ hx)
      · rw [if_neg h2] at hx
        rcases List.mem_cons.mp hx with hx | hx
        · exact Or.inr (hx ▸ List.mem_cons_self _ _)
        · rcases ih hx with hh | hh
          · exact Or.inl hh
          · exact Or.inr (List.mem_cons_of_mem _ hh)

theorem mapInsert_sorted {kvs : List (List Char × Json)} {k : List Char} {v : Json}
    (h : sortedKeys kvs = true) : sortedKeys (mapInsert k v kvs) = true := by
  induction kvs with
  | nil => rfl
  | cons a kvs ih =>
    obtain ⟨a1, a2⟩ := a
    obtain ⟨h1, h2⟩ := sorted_cons h
    simp only [mapInsert]
    by_cases hk : keyLt k a1 = true
    · rw [if_pos hk]
      refine sorted_cons_intro h ?_
      intro x hx
      rcases List.mem_cons.mp hx with hx | hx
      · rw [hx]; exact hk
      · exact keyLt_trans hk (h2 x hx)
    · rw [if_neg hk]
      by_cases he : k = a1
      · rw [if_pos he]
        refine sorted_cons_intro h1 ?_
        intro x hx
        rw [he]
        exact h2 x hx
      · rw [if_neg he]
        refine sorted_cons_intro (ih h1) ?_
        intro x hx
        have hak : keyLt a1 k = true :=
          keyLt_connex (Bool.eq_false_iff.mpr hk) he
        rcases mapInsert_mem hx with hx | hx
        · rw [hx]; exact hak
        · exact h2 x hx

/-! ## Byte strings, UTF-8 and base64 round trips -/


theorem beBytes_length (k n : Nat) : (beBytes k n).length = k := by
  induction k generalizing n with
  | zero => rfl
  | succ k ih => simp [beBytes, ih]

theorem beBytes_lt (k n : Nat) : ∀ b ∈ beBytes k n, b < 256 := by
  induction k generalizing n with
  | zero => simp [beBytes]
  | succ k ih =>
    intro b hb
    rw [beBytes] at hb
    rcases List.mem_append.mp hb with hb | hb
    · exact ih _ b hb
    · have hb' : b = n % 256 := List.mem_singleton.mp hb
      omega

theorem beVal_append_one (xs : List Nat) (b : Nat) :
    beVal (xs ++ [b]) = beVal xs * 256 + b := by
  simp [beVal, List.foldl_append]

theorem beVal_beBytes {k n : Nat} (h : n < 256 ^ k) : beVal (beBytes k n) = n := by
  induction k generalizing n with
  | zero =>
    interval_cases n
    rfl
  | succ k ih =>
    have h2 : n / 256 < 256 ^ k := by
      have hp : (256 : Nat) ^ (k + 1) = 256 ^ k * 256 := by ring
      omega
    rw [beBytes, beVal_append_one, ih h2]
    omega

theorem readN_append (xs r : List Nat) : readN xs.length (xs ++ r) = some (xs, r) := by
  induction xs with
  | nil => rfl
  | cons b xs ih => simp [readN, ih]

theorem expectBytes_exact (xs r : List Nat) :
    expectBytes xs.length (xs ++ r) = .ok (xs, r) := by
  simp [expectBytes, readN_append]

theorem char_valid_nat (c : Char) :
    c.toNat < 55296 ∨ (57343 < c.toNat ∧ c.toNat < 1114112) := by
  rcases c.valid with h | h
  · left; exact h
  · right; exact ⟨h.1, h.2⟩

theorem utf8EncodeChar_lt (c : Char) : ∀ b ∈ utf8EncodeChar c, b < 256 := by
  have hv := char_valid_nat c
  intro b hb
  simp only [utf8EncodeChar] at hb
  split at hb
  · rcases List.mem_singleton.mp hb with rfl
    omega
  · split at hb
    · simp only [List.mem_cons, List.not_mem_nil, or_false] at hb
      rcases hb with rfl | rfl <;> omega
    · split at hb
      · simp only [List.mem_cons, List.not_mem_nil, or_false] at hb
        rcases hb with rfl | rfl | rfl <;> omega
      · simp only [List.mem_cons, List.not_mem_nil, or_false] at hb
        rcases hb with rfl | rfl | rfl | rfl <;> omega

theorem utf8Decode_encodeChar (c : Char) (bs : List Nat) :
    utf8Decode (utf8EncodeChar c ++ bs) = (utf8Decode bs).map (c :: ·) := by
  have hv := char_valid_nat c
  have hofn : Char.ofNat c.toNat = c := Char.ofNat_toNat c
  by_cases h1 : c.toNat < 128
  · rw [show utf8EncodeChar c = [c.toNat] from by simp only [utf8EncodeChar]; rw [if_pos h1]]
    rw [List.singleton_append, utf8Decode]
    rw [if_pos h1, hofn]
  · by_cases h2 : c.toNat < 2048
    · rw [show utf8EncodeChar c = [192 + c.toNat / 64, 128 + c.toNat % 64] from by
        simp only [utf8EncodeChar]; rw [if_neg h1, if_pos h2]]
      rw [List.cons_append, List.cons_append, List.nil_append, utf8Decode]
      rw [if_neg (by omega), if_neg (by omega), if_pos (by omega)]
      rw [utf8Dec2]
      rw [if_pos (by constructor <;> omega)]
      rw [show (192 + c.toNat / 64 - 192) * 64 + (128 + c.toNat % 64 - 128) = c.toNat by omega]
      rw [hofn]
    · by_cases h3 : c.toNat < 65536
      · rw [show utf8EncodeChar c
            = [224 + c.toNat / 4096, 128 + c.toNat / 64 % 64, 128 + c.toNat % 64] from by
          simp only [utf8EncodeChar]; rw [if_neg h1, if_neg h2, if_pos h3]]
        rw [List.cons_append, List.cons_append, List.cons_append, List.nil_append, utf8Decode]
        rw [if_neg (by omega), if_neg (by omega), if_neg (by omega), if_pos (by omega)]
        rw [utf8Dec3]
        rw [if_pos (by refine ⟨⟨by omega, by omega⟩, by omega, by omega⟩)]
        rw [if_pos (by constructor <;> omega)]
        rw [show (224 + c.toNat / 4096 - 224) * 4096 + (128 + c.toNat / 64 % 64 - 128) * 64
            + (128 + c.toNat % 64 - 128) = c.toNat by omega]
        rw [hofn]
      · rw [show utf8EncodeChar c
            = [240 + c.toNat / 262144, 128 + c.toNat / 4096 % 64, 128 + c.toNat / 64 % 64,
               128 + c.toNat % 64] from by
          simp only [utf8EncodeChar]; rw [if_neg h1, if_neg h2, if_neg h3]]
        rw [List.cons_append, List.cons_append, List.cons_append, List.cons_append,
          List.nil_append, utf8Decode]
        rw [if_neg (by omega), if_neg (by omega), if_neg (by omega), if_neg (by omega),
          if_pos (by omega)]
        rw [utf8Dec4]
        rw [if_pos (by refine ⟨⟨by omega, by omega⟩, ⟨by omega, by omega⟩, by omega, by omega⟩)]
        rw [if_pos (by constructor <;> omega)]
        rw [show (240 + c.toNat / 262144 - 240) * 262144 + (128 + c.toNat / 4096 % 64 - 128) * 4096
            + (128 + c.toNat / 64 % 64 - 128) * 64 + (128 + c.toNat % 64 - 128) = c.toNat by omega]
        rw [hofn]

theorem utf8Decode_encode_append (s : List Char) (bs : List Nat) :
    utf8Decode (utf8Encode s ++ bs) = (utf8Decode bs).map (s ++ ·) := by
  induction s with
  | nil =>
    simp [utf8Encode]
  | cons c s ih =>
    rw [utf8Encode, List.append_assoc, utf8Decode_encodeChar, ih, Option.map_map]
    rfl

theorem utf8Decode_encode (s : List Char) : utf8Decode (utf8Encode s) = some s := by
  have h := utf8Decode_encode_append s []
  rw [List.append_nil] at h
  rw [h, utf8Decode]
  simp



theorem b64Index_b64Char : ∀ n, n < 64 → b64Index (b64Char n) = some n := by decide

theorem b64Char_ne_pad : ∀ n, n < 64 → b64Char n ≠ '=' := by decide

theorem base64_roundtrip (bs : List Nat) (hb : ∀ b ∈ bs, b < 256) :
    base64Decode (base64Encode bs) = .ok bs := by
  induction bs using base64Encode.induct with
  | case1 => rfl
  | case2 b1 =>
    have h1 : b1 < 256 := hb b1 (by simp)
    have i1 : b64Index (b64Char (b1 / 4)) = some (b1 / 4) := b64Index_b64Char _ (by omega)
    have i2 : b64Index (b64Char (b1 % 4 * 16)) = some (b1 % 4 * 16) :=
      b64Index_b64Char _ (by omega)
    have hn2 : b1 % 4 * 16 % 16 = 0 := by omega
    rw [base64Encode, base64Decode, i1, i2]
    simp [hn2]
    omega
  | case3 b1 b2 =>
    have h1 : b1 < 256 := hb b1 (by simp)
    have h2 : b2 < 256 := hb b2 (by simp)
    have i1 : b64Index (b64Char (b1 / 4)) = some (b1 / 4) := b64Index_b64Char _ (by omega)
    have i2 : b64Index (b64Char (b1 % 4 * 16 + b2 / 16)) = some (b1 % 4 * 16 + b2 / 16) :=
      b64Index_b64Char _ (by omega)
    have i3 : b64Index (b64Char (b2 % 16 * 4)) = some (b2 % 16 * 4) :=
      b64Index_b64Char _ (by omega)
    have hc3 : b64Char (b2 % 16 * 4) ≠ '=' := b64Char_ne_pad _ (by omega)
    have hn3 : b2 % 16 * 4 % 4 = 0 := by omega
    rw [base64Encode, base64Decode, i1, i2]
    simp [hc3, i3, hn3]
    omega
  | case4 b1 b2 b3 bs ih =>
    have h1 : b1 < 256 := hb b1 (by simp)
    have h2 : b2 < 256 := hb b2 (by simp)
    have h3 : b3 < 256 := hb b3 (by simp)
    have i1 : b64Index (b64Char (b1 / 4)) = some (b1 / 4) := b64Index_b64Char _ (by omega)
    have i2 : b64Index (b64Char (b1 % 4 * 16 + b2 / 16)) = some (b1 % 4 * 16 + b2 / 16) :=
      b64Index_b64Char _ (by omega)
    have i3 : b64Index (b64Char (b2 % 16 * 4 + b3 / 64)) = some (b2 % 16 * 4 + b3 / 64) :=
      b64Index_b64Char _ (by omega)
    have i4 : b64Index (b64Char (b3 % 64)) = some (b3 % 64) := b64Index_b64Char _ (by omega)
    have hc3 : b64Char (b2 % 16 * 4 + b3 / 64) ≠ '=' := b64Char_ne_pad _ (by omega)
    have hc4 : b64Char (b3 % 64) ≠ '=' := b64Char_ne_pad _ (by omega)
    have hrec := ih (fun b hbm => hb b (by simp [hbm]))
    rw [base64Encode, base64Decode, i1, i2]
    simp [hc3, hc4, i3, i4, hrec, Except.map]
    omega

/-! ## MessagePack decoding inverts encoding -/


theorem isNegFix_false {b : Nat} (h : b < 224) : isNegFix b = false := by
  simp [isNegFix]; omega

theorem marker_posfix {b : Nat} (h : b ≤ 127) : marker b = .posfix b := by
  unfold marker; rw [if_pos h]

theorem marker_fixmap {b : Nat} (h1 : 128 ≤ b) (h2 : b ≤ 143) :
    marker b = .fixmap (b - 128) := by
  unfold marker; rw [if_neg (by omega), if_pos h2]

theorem marker_fixarr {b : Nat} (h1 : 144 ≤ b) (h2 : b ≤ 159) :
    marker b = .fixarr (b - 144) := by
  unfold marker; rw [if_neg (by omega), if_neg (by omega), if_pos h2]

theorem marker_fixstr {b : Nat} (h1 : 160 ≤ b) (h2 : b ≤ 191) :
    marker b = .fixstr (b - 160) := by
  unfold marker; rw [if_neg (by omega), if_neg (by omega), if_neg (by omega), if_pos h2]

theorem expectBytes_len {k : Nat} {xs : List Nat} (h : xs.length = k) (r : List Nat) :
    expectBytes k (xs ++ r) = .ok (xs, r) := by
  subst h; exact expectBytes_exact xs r

theorem decodeOne_m_posfix {b n : Nat} (hb : b < 224) (hm : marker b = .posfix n)
    (f : Nat) (s : List Nat) :
    decodeOne (f + 1) (b :: s) = .ok (.int n, s) := by
  simp only [decodeOne]
  rw [isNegFix_false hb, hm]
  simp

theorem decodeOne_m_fixmap {b n : Nat} (hb : b < 224) (hm : marker b = .fixmap n)
    (f : Nat) (s : List Nat) :
    decodeOne (f + 1) (b :: s) = decodeMapEntries f n [] s := by
  simp only [decodeOne]
  rw [isNegFix_false hb, hm]
  simp

theorem decodeOne_m_fixarr {b n : Nat} (hb : b < 224) (hm : marker b = .fixarr n)
    (f : Nat) (s : List Nat) :
    decodeOne (f + 1) (b :: s) = decodeArrayElems f n [] s := by
  simp only [decodeOne]
  rw [isNegFix_false hb, hm]
  simp

theorem decodeOne_m_fixstr {b n : Nat} (hb : b < 224) (hm : marker b = .fixstr n)
    (f : Nat) (s : List Nat) :
    decodeOne (f + 1) (b :: s) = decodeStrPayload n s := by
  simp only [decodeOne]
  rw [isNegFix_false hb, hm]
  simp

theorem decodeOne_m_mnil {b : Nat} (hb : b < 224) (hm : marker b = .mnil)
    (f : Nat) (s : List Nat) :
    decodeOne (f + 1) (b :: s) = .ok (.null, s) := by
  simp only [decodeOne]
  rw [isNegFix_false hb, hm]
  simp

theorem decodeOne_m_mfalse {b : Nat} (hb : b < 224) (hm : marker b = .mfalse)
    (f : Nat) (s : List Nat) :
    decodeOne (f + 1) (b :: s) = .ok (.bool false, s) := by
  simp only [decodeOne]
  rw [isNegFix_false hb, hm]
  simp

theorem decodeOne_m_mtrue {b : Nat} (hb : b < 224) (hm : marker b = .mtrue)
    (f : Nat) (s : List Nat) :
    decodeOne (f + 1) (b :: s) = .ok (.bool true, s) := by
  simp only [decodeOne]
  rw [isNegFix_false hb, hm]
  simp

theorem decodeOne_m_uintN {b k : Nat} (hb : b < 224) (hm : marker b = .uintN k)
    (f : Nat) (s : List Nat) :
    decodeOne (f + 1) (b :: s)
      = (do
          let (bs, r) ← expectBytes k s
          .ok (.int (beVal bs), r)) := by
  simp only [decodeOne]
  rw [isNegFix_false hb, hm]
  simp

theorem decodeOne_m_sintN {b k : Nat} (hb : b < 224) (hm : marker b = .sintN k)
    (f : Nat) (s : List Nat) :
    decodeOne (f + 1) (b :: s)
      = (do
          let (bs, r) ← expectBytes k s
          .ok (.int (sintOfBytes k bs), r)) := by
  simp only [decodeOne]
  rw [isNegFix_false hb, hm]
  simp

theorem decodeOne_m_arrN {b k : Nat} (hb : b < 224) (hm : marker b = .arrN k)
    (f : Nat) (s : List Nat) :
    decodeOne (f + 1) (b :: s)
      = (do
          let (bs, r) ← expectBytes k s
          decodeArrayElems f (beVal bs) [] r) := by
  simp only [decodeOne]
  rw [isNegFix_false hb, hm]
  simp

theorem decodeOne_m_mapN {b k : Nat} (hb : b < 224) (hm : marker b = .mapN k)
    (f : Nat) (s : List Nat) :
    decodeOne (f + 1) (b :: s)
      = (do
          let (bs, r) ← expectBytes k s
          decodeMapEntries f (beVal bs) [] r) := by
  simp only [decodeOne]
  rw [isNegFix_false hb, hm]
  simp

theorem decodeOne_m_strN {b k : Nat} (hb : b < 224) (hm : marker b = .strN k)
    (f : Nat) (s : List Nat) :
    decodeOne (f + 1) (b :: s)
      = (do
          let (bs, r) ← expectBytes k s
          decodeStrPayload (beVal bs) r) := by
  simp only [decodeOne]
  rw [isNegFix_false hb, hm]
  simp

theorem decodeOne_negfix {b : Nat} (hb : 224 ≤ b) (f : Nat) (s : List Nat) :
    decodeOne (f + 1) (b :: s) = .ok (.int ((b : Int) - 256), s) := by
  simp only [decodeOne]
  rw [show isNegFix b = true by simp [isNegFix]; omega]
  simp

theorem beVal_one (n : Nat) : beVal [n] = n := by simp [beVal]

theorem decodeOne_encUint {n : Nat} (hn : n < 2 ^ 64) (f : Nat) (rest : List Nat) :
    decodeOne (f + 1) (encUint n ++ rest) = .ok (.int n, rest) := by
  unfold encUint
  by_cases h1 : n ≤ 127
  · rw [if_pos h1]
    rw [show ([n] : List Nat) ++ rest = n :: rest from rfl]
    exact decodeOne_m_posfix (by omega) (marker_posfix (by omega)) f rest
  · rw [if_neg h1]
    by_cases h2 : n ≤ 255
    · rw [if_pos h2]
      rw [show ([204, n] : List Nat) ++ rest = 204 :: ([n] ++ rest) from rfl]
      rw [decodeOne_m_uintN (by omega) (show marker 204 = .uintN 1 from rfl)]
      simp only [Bind.bind, Except.bind]
      rw [expectBytes_len (by simp)]
      simp [beVal_one]
    · rw [if_neg h2]
      by_cases h3 : n ≤ 65535
      · rw [if_pos h3]
        rw [List.cons_append]
        rw [decodeOne_m_uintN (by omega) (show marker 205 = .uintN 2 from rfl)]
        simp only [Bind.bind, Except.bind]
        rw [expectBytes_len (beBytes_length 2 n)]
        simp [beVal_beBytes (show n < 256 ^ 2 by norm_num; omega)]
      · rw [if_neg h3]
        by_cases h4 : n ≤ 4294967295
        · rw [if_pos h4]
          rw [List.cons_append]
          rw [decodeOne_m_uintN (by omega) (show marker 206 = .uintN 4 from rfl)]
          simp only [Bind.bind, Except.bind]
          rw [expectBytes_len (beBytes_length 4 n)]
          simp [beVal_beBytes (show n < 256 ^ 4 by norm_num; omega)]
        · rw [if_neg h4]
          rw [List.cons_append]
          rw [decodeOne_m_uintN (by omega) (show marker 207 = .uintN 8 from rfl)]
          simp only [Bind.bind, Except.bind]
          rw [expectBytes_len (beBytes_length 8 n)]
          simp [beVal_beBytes (show n < 256 ^ 8 by norm_num; omega)]

theorem decodeOne_encSint {n : Int} (hlo : -(2 ^ 63) ≤ n) (hhi : n < 0)
    (f : Nat) (rest : List Nat) :
    decodeOne (f + 1) (encSint n ++ rest) = .ok (.int n, rest) := by
  unfold encSint
  by_cases h1 : -32 ≤ n
  · rw [if_pos h1]
    rw [show ([(256 + n).toNat] : List Nat) ++ rest = (256 + n).toNat :: rest from rfl]
    rw [decodeOne_negfix (by omega)]
    rw [show ((256 + n).toNat : Int) - 256 = n by omega]
  · rw [if_neg h1]
    by_cases h2 : -128 ≤ n
    · rw [if_pos h2]
      rw [show ([208, (256 + n).toNat] : List Nat) ++ rest
          = 208 :: ([(256 + n).toNat] ++ rest) from rfl]
      rw [decodeOne_m_sintN (by omega) (show marker 208 = .sintN 1 from rfl)]
      simp only [Bind.bind, Except.bind]
      rw [expectBytes_len (by simp)]
      simp only [sintOfBytes, beVal_one]
      rw [if_neg (by norm_num; omega)]
      rw [show ((256 + n).toNat : Int) - 2 ^ (8 * 1) = n by norm_num; omega]
    · rw [if_neg h2]
      by_cases h3 : -32768 ≤ n
      · rw [if_pos h3]
        rw [List.cons_append]
        rw [decodeOne_m_sintN (by omega) (show marker 209 = .sintN 2 from rfl)]
        simp only [Bind.bind, Except.bind]
        rw [expectBytes_len (beBytes_length 2 _)]
        simp only [sintOfBytes, beVal_beBytes (show (65536 + n).toNat < 256 ^ 2 by norm_num; omega)]
        rw [if_neg (by norm_num; omega)]
        rw [show ((65536 + n).toNat : Int) - 2 ^ (8 * 2) = n by norm_num; omega]
      · rw [if_neg h3]
        by_cases h4 : -2147483648 ≤ n
        · rw [if_pos h4]
          rw [List.cons_append]
          rw [decodeOne_m_sintN (by omega) (show marker 210 = .sintN 4 from rfl)]
          simp only [Bind.bind, Except.bind]
          rw [expectBytes_len (beBytes_length 4 _)]
          simp only [sintOfBytes,
            beVal_beBytes (show (4294967296 + n).toNat < 256 ^ 4 by norm_num; omega)]
          rw [if_neg (by norm_num; omega)]
          rw [show ((4294967296 + n).toNat : Int) - 2 ^ (8 * 4) = n by norm_num; omega]
        · rw [if_neg h4]
          rw [List.cons_append]
          rw [decodeOne_m_sintN (by omega) (show marker 211 = .sintN 8 from rfl)]
          simp only [Bind.bind, Except.bind]
          rw [expectBytes_len (beBytes_length 8 _)]
          simp only [sintOfBytes,
            beVal_beBytes (show (18446744073709551616 + n).toNat < 256 ^ 8 by norm_num; omega)]
          rw [if_neg (by norm_num; omega)]
          rw [show ((18446744073709551616 + n).toNat : Int) - 2 ^ (8 * 8) = n by norm_num; omega]



theorem decodeOne_encodeStr {s : List Char} (hsz : (utf8Encode s).length < 2 ^ 32)
    (f : Nat) (rest : List Nat) :
    decodeOne (f + 1) (encStrBytes (utf8Encode s) ++ rest) = .ok (.str s, rest) := by
  have hmod : (utf8Encode s).length % 2 ^ 32 = (utf8Encode s).length :=
    Nat.mod_eq_of_lt hsz
  have hpay : decodeStrPayload (utf8Encode s).length (utf8Encode s ++ rest)
      = .ok (.str s, rest) := by
    unfold decodeStrPayload
    rw [expectBytes_exact]
    simp only [Bind.bind, Except.bind, utf8Decode_encode s]
  simp only [encStrBytes, hmod]
  by_cases h31 : (utf8Encode s).length ≤ 31
  · rw [if_pos h31]
    simp only [List.cons_append, List.nil_append, List.append_assoc]
    have hm : marker (160 + (utf8Encode s).length) = .fixstr (utf8Encode s).length := by
      rw [marker_fixstr (by omega) (by omega)]
      congr 1
      omega
    rw [decodeOne_m_fixstr (by omega) hm]
    exact hpay
  · rw [if_neg h31]
    by_cases h255 : (utf8Encode s).length ≤ 255
    · rw [if_pos h255]
      simp only [List.cons_append, List.nil_append, List.append_assoc]
      rw [decodeOne_m_strN (by omega) (show marker 217 = .strN 1 from rfl)]
      rw [show ((utf8Encode s).length :: (utf8Encode s ++ rest))
          = [(utf8Encode s).length] ++ (utf8Encode s ++ rest) from rfl]
      rw [expectBytes_len (by simp)]
      simp only [Bind.bind, Except.bind, beVal_one]
      exact hpay
    · rw [if_neg h255]
      by_cases h65535 : (utf8Encode s).length ≤ 65535
      · rw [if_pos h65535]
        simp only [List.cons_append, List.nil_append, List.append_assoc]
        rw [decodeOne_m_strN (by omega) (show marker 218 = .strN 2 from rfl)]
        rw [expectBytes_len (beBytes_length 2 _)]
        simp only [Bind.bind, Except.bind]
        rw [beVal_beBytes (show (utf8Encode s).length < 256 ^ 2 by norm_num; omega)]
        exact hpay
      · rw [if_neg h65535]
        simp only [List.cons_append, List.nil_append, List.append_assoc]
        rw [decodeOne_m_strN (by omega) (show marker 219 = .strN 4 from rfl)]
        rw [expectBytes_len (beBytes_length 4 _)]
        simp only [Bind.bind, Except.bind]
        rw [beVal_beBytes (show (utf8Encode s).length < 256 ^ 4 by norm_num; omega)]
        exact hpay

theorem encode_length_pos (v : Json) : 1 ≤ (encode v).length := by
  cases v with
  | null => simp [encode]
  | bool b => cases b <;> simp [encode]
  | int n =>
    simp only [encode]
    split
    · unfold encUint
      split_ifs <;> simp [beBytes_length]
    · unfold encSint
      split_ifs <;> simp [beBytes_length]
  | str s =>
    simp only [encode, encStrBytes]
    split_ifs <;> simp [beBytes_length]
  | arr xs =>
    simp only [encode, encArrayLen]
    split_ifs <;> simp [beBytes_length]
  | obj kvs =>
    simp only [encode, encMapLen]
    split_ifs <;> simp [beBytes_length]



theorem encStrBytes_length_pos (p : List Nat) : 1 ≤ (encStrBytes p).length := by
  simp only [encStrBytes]
  split_ifs <;> simp [beBytes_length]

theorem wfList_mem {xs : List Json} (h : wfList xs = true) : ∀ x ∈ xs, wf x = true := by
  induction xs with
  | nil => simp
  | cons y ys ih =>
    simp only [wfList, Bool.and_eq_true] at h
    intro x hx
    rcases List.mem_cons.mp hx with hx | hx
    · rw [hx]; exact h.1
    · exact ih h.2 x hx

theorem sizeOkList_mem {xs : List Json} (h : sizeOkList xs = true) :
    ∀ x ∈ xs, sizeOk x = true := by
  induction xs with
  | nil => simp
  | cons y ys ih =>
    simp only [sizeOkList, Bool.and_eq_true] at h
    intro x hx
    rcases List.mem_cons.mp hx with hx | hx
    · rw [hx]; exact h.1
    · exact ih h.2 x hx

theorem wfObj_mem {kvs : List (List Char × Json)} (h : wfObj kvs = true) :
    ∀ kv ∈ kvs, wf kv.2 = true := by
  induction kvs with
  | nil => simp
  | cons e es ih =>
    obtain ⟨k, v⟩ := e
    simp only [wfObj, Bool.and_eq_true] at h
    intro kv hkv
    rcases List.mem_cons.mp hkv with hkv | hkv
    · rw [hkv]; exact h.1
    · exact ih h.2 kv hkv

theorem sizeOkObj_mem {kvs : List (List Char × Json)} (h : sizeOkObj kvs = true) :
    ∀ kv ∈ kvs, (utf8Encode kv.1).length < 2 ^ 32 ∧ sizeOk kv.2 = true := by
  induction kvs with
  | nil => simp
  | cons e es ih =>
    obtain ⟨k, v⟩ := e
    simp only [sizeOkObj, Bool.and_eq_true, decide_eq_true_eq] at h
    intro kv hkv
    rcases List.mem_cons.mp hkv with hkv | hkv
    · rw [hkv]; exact ⟨h.1.1, h.1.2⟩
    · exact ih h.2 kv hkv

theorem decodeArrayElems_encodeList (xs : List Json) :
    ∀ (acc : List Json) (f : Nat) (rest : List Nat),
    (∀ x ∈ xs, ∀ f' rest', 4 * (encode x).length ≤ f' →
      decodeOne f' (encode x ++ rest') = .ok (x, rest')) →
    2 + 4 * (encodeList xs).length ≤ f →
    decodeArrayElems f xs.length acc (encodeList xs ++ rest)
      = .ok (.arr (acc.reverse ++ xs), rest) := by
  induction xs with
  | nil =>
    intro acc f rest _ hf
    obtain ⟨f, rfl⟩ : ∃ f', f = f' + 1 := ⟨f - 1, by omega⟩
    simp [decodeArrayElems, encodeList]
  | cons x xs ih =>
    intro acc f rest hx hf
    obtain ⟨f, rfl⟩ : ∃ f', f = f' + 1 := ⟨f - 1, by omega⟩
    have hlen : 1 ≤ (encode x).length := encode_length_pos x
    have hlist : (encodeList (x :: xs)).length
        = (encode x).length + (encodeList xs).length := by
      simp [encodeList]
    rw [hlist] at hf
    simp only [encodeList, List.length_cons, List.append_assoc, decodeArrayElems]
    rw [hx x (List.mem_cons_self x xs) f (encodeList xs ++ rest) (by omega)]
    simp only [Bind.bind, Except.bind]
    rw [ih (x :: acc) f rest
      (fun y hy => hx y (List.mem_cons_of_mem x hy)) (by omega)]
    simp

theorem decodeMapEntries_encodeObj (kvs : List (List Char × Json)) :
    ∀ (acc : List (List Char × Json)) (f : Nat) (rest : List Nat),
    (∀ kv ∈ kvs, ∀ f' rest', 4 * (encode kv.2).length ≤ f' →
      decodeOne f' (encode kv.2 ++ rest') = .ok (kv.2, rest')) →
    (∀ kv ∈ kvs, (utf8Encode kv.1).length < 2 ^ 32) →
    sortedKeys (acc ++ kvs) = true →
    2 + 4 * (encodeObj kvs).length ≤ f →
    decodeMapEntries f kvs.length acc (encodeObj kvs ++ rest)
      = .ok (.obj (acc ++ kvs), rest) := by
  induction kvs with
  | nil =>
    intro acc f rest _ _ _ hf
    obtain ⟨f, rfl⟩ : ∃ f', f = f' + 1 := ⟨f - 1, by omega⟩
    simp [decodeMapEntries, encodeObj]
  | cons e kvs ih =>
    obtain ⟨k, v⟩ := e
    intro acc f rest hval hkey hsort hf
    obtain ⟨f, rfl⟩ : ∃ f', f = f' + 1 := ⟨f - 1, by omega⟩
    have hklen : 1 ≤ (encStrBytes (utf8Encode k)).length := encStrBytes_length_pos _
    have hvlen : 1 ≤ (encode v).length := encode_length_pos v
    have hlist : (encodeObj ((k, v) :: kvs)).length
        = (encStrBytes (utf8Encode k)).length + (encode v).length
          + (encodeObj kvs).length := by
      simp [encodeObj]
      omega
    rw [hlist] at hf
    obtain ⟨f, rfl⟩ : ∃ g, f = g + 1 := ⟨f - 1, by omega⟩
    have hv' : ∀ f' rest', 4 * (encode v).length ≤ f' →
        decodeOne f' (encode v ++ rest') = .ok (v, rest') :=
      hval (k, v) (List.mem_cons_self _ _)
    have hk1 := decodeOne_encodeStr (hkey (k, v) (List.mem_cons_self _ _)) f
      (encode v ++ (encodeObj kvs ++ rest))
    have hv1 := hv' (f + 1) (encodeObj kvs ++ rest) (by omega)
    have hins : mapInsert k v acc = acc ++ [(k, v)] :=
      mapInsert_append (sorted_append_mem_lt hsort)
    have hsort2 : sortedKeys ((acc ++ [(k, v)]) ++ kvs) = true := by
      rw [List.append_assoc, List.singleton_append]
      exact hsort
    have hrec := ih (acc ++ [(k, v)]) (f + 1) rest
      (fun kv hkv => hval kv (List.mem_cons_of_mem _ hkv))
      (fun kv hkv => hkey kv (List.mem_cons_of_mem _ hkv))
      hsort2 (by omega)
    simp only [encodeObj, List.length_cons, List.append_assoc, decodeMapEntries,
      Bind.bind, Except.bind, hk1, hv1, hins, hrec]
    rw [List.singleton_append]



/-- Decoding inverts encoding: one decoded value, trailing bytes kept. -/
theorem decodeOne_encode (v : Json) (hwf : wf v = true) (hsz : sizeOk v = true) :
    ∀ f rest, 4 * (encode v).length ≤ f →
      decodeOne f (encode v ++ rest) = .ok (v, rest) := by
  induction v using Json.inductionOn with
  | hnull =>
    intro f rest hf
    obtain ⟨f, rfl⟩ : ∃ f', f = f' + 1 := ⟨f - 1, by simp [encode] at hf; omega⟩
    rw [show encode .null ++ rest = 192 :: rest from rfl]
    exact decodeOne_m_mnil (by omega) (show marker 192 = .mnil from rfl) f rest
  | hbool b =>
    intro f rest hf
    obtain ⟨f, rfl⟩ : ∃ f', f = f' + 1 := ⟨f - 1, by cases b <;> simp [encode] at hf <;> omega⟩
    cases b
    · rw [show encode (.bool false) ++ rest = 194 :: rest from rfl]
      exact decodeOne_m_mfalse (by omega) (show marker 194 = .mfalse from rfl) f rest
    · rw [show encode (.bool true) ++ rest = 195 :: rest from rfl]
      exact decodeOne_m_mtrue (by omega) (show marker 195 = .mtrue from rfl) f rest
  | hint n =>
    intro f rest hf
    simp only [wf, Bool.and_eq_true, decide_eq_true_eq] at hwf
    obtain ⟨f, rfl⟩ : ∃ f', f = f' + 1 :=
      ⟨f - 1, by have := encode_length_pos (.int n); omega⟩
    simp only [encode]
    by_cases hn : 0 ≤ n
    · rw [if_pos hn]
      rw [show (.int n : Json) = .int n.toNat by rw [Int.toNat_of_nonneg hn]]
      exact decodeOne_encUint (by omega) f rest
    · rw [if_neg hn]
      exact decodeOne_encSint (by omega) (by omega) f rest
  | hstr s =>
    intro f rest hf
    simp only [sizeOk, decide_eq_true_eq] at hsz
    obtain ⟨f, rfl⟩ : ∃ f', f = f' + 1 :=
      ⟨f - 1, by have := encode_length_pos (.str s); omega⟩
    exact decodeOne_encodeStr hsz f rest
  | harr xs ih =>
    intro f rest hf
    simp only [wf] at hwf
    simp only [sizeOk, Bool.and_eq_true, decide_eq_true_eq] at hsz
    obtain ⟨hsz1, hsz2⟩ := hsz
    have hmod : xs.length % 2 ^ 32 = xs.length := Nat.mod_eq_of_lt hsz1
    have helem : ∀ x ∈ xs, ∀ f' rest', 4 * (encode x).length ≤ f' →
        decodeOne f' (encode x ++ rest') = .ok (x, rest') :=
      fun x hx => ih x hx (wfList_mem hwf x hx) (sizeOkList_mem hsz2 x hx)
    have hlen : (encode (.arr xs)).length
        = (encArrayLen xs.length).length + (encodeList xs).length := by
      simp [encode]
    rw [hlen] at hf
    obtain ⟨f, rfl⟩ : ∃ f', f = f' + 1 :=
      ⟨f - 1, by
        have : 1 ≤ (encArrayLen xs.length).length := by
          simp only [encArrayLen]
          split_ifs <;> simp [beBytes_length]
        omega⟩
    simp only [encode, encArrayLen, hmod]
    have harrlen : 1 ≤ (encArrayLen xs.length).length := by
      simp only [encArrayLen]
      split_ifs <;> simp [beBytes_length]
    by_cases h15 : xs.length ≤ 15
    · rw [if_pos h15]
      simp only [List.cons_append, List.nil_append, List.append_assoc]
      have hm : marker (144 + xs.length) = .fixarr xs.length := by
        rw [marker_fixarr (by omega) (by omega)]
        congr 1
        omega
      rw [decodeOne_m_fixarr (by omega) hm]
      have := decodeArrayElems_encodeList xs [] f rest helem
        (by
          simp only [encArrayLen] at hf
          rw [if_pos (by omega)] at hf
          simp at hf
          omega)
      simpa using this
    · rw [if_neg h15]
      by_cases h65535 : xs.length ≤ 65535
      · rw [if_pos h65535]
        simp only [List.cons_append, List.nil_append, List.append_assoc]
        rw [decodeOne_m_arrN (by omega) (show marker 220 = .arrN 2 from rfl)]
        rw [expectBytes_len (beBytes_length 2 _)]
        simp only [Bind.bind, Except.bind]
        rw [beVal_beBytes (show xs.length < 256 ^ 2 by norm_num; omega)]
        have := decodeArrayElems_encodeList xs [] f rest helem
          (by
            simp only [encArrayLen] at hf
            rw [if_neg (by omega), if_pos (by omega)] at hf
            simp [beBytes_length] at hf
            omega)
        simpa using this
      · rw [if_neg h65535]
        simp only [List.cons_append, List.nil_append, List.append_assoc]
        rw [decodeOne_m_arrN (by omega) (show marker 221 = .arrN 4 from rfl)]
        rw [expectBytes_len (beBytes_length 4 _)]
        simp only [Bind.bind, Except.bind]
        rw [beVal_beBytes (show xs.length < 256 ^ 4 by norm_num; omega)]
        have := decodeArrayElems_encodeList xs [] f rest helem
          (by
            simp only [encArrayLen] at hf
            rw [if_neg (by omega), if_neg (by omega)] at hf
            simp [beBytes_length] at hf
            omega)
        simpa using this
  | hobj kvs ih =>
    intro f rest hf
    simp only [wf, Bool.and_eq_true] at hwf
    obtain ⟨hsort, hwfv⟩ := hwf
    simp only [sizeOk, Bool.and_eq_true, decide_eq_true_eq] at hsz
    obtain ⟨hsz1, hsz2⟩ := hsz
    have hmod : kvs.length % 2 ^ 32 = kvs.length := Nat.mod_eq_of_lt hsz1
    have hval : ∀ kv ∈ kvs, ∀ f' rest', 4 * (encode kv.2).length ≤ f' →
        decodeOne f' (encode kv.2 ++ rest') = .ok (kv.2, rest') :=
      fun kv hkv => ih kv hkv (wfObj_mem hwfv kv hkv) ((sizeOkObj_mem hsz2 kv hkv).2)
    have hkey : ∀ kv ∈ kvs, (utf8Encode kv.1).length < 2 ^ 32 :=
      fun kv hkv => (sizeOkObj_mem hsz2 kv hkv).1
    have hlen : (encode (.obj kvs)).length
        = (encMapLen kvs.length).length + (encodeObj kvs).length := by
      simp [encode]
    rw [hlen] at hf
    obtain ⟨f, rfl⟩ : ∃ f', f = f' + 1 :=
      ⟨f - 1, by
        have : 1 ≤ (encMapLen kvs.length).length := by
          simp only [encMapLen]
          split_ifs <;> simp [beBytes_length]
        omega⟩
    simp only [encode, encMapLen, hmod]
    by_cases h15 : kvs.length ≤ 15
    · rw [if_pos h15]
      simp only [List.cons_append, List.nil_append, List.append_assoc]
      have hm : marker (128 + kvs.length) = .fixmap kvs.length := by
        rw [marker_fixmap (by omega) (by omega)]
        congr 1
        omega
      rw [decodeOne_m_fixmap (by omega) hm]
      have := decodeMapEntries_encodeObj kvs [] f rest hval hkey (by simpa using hsort)
        (by
          simp only [encMapLen] at hf
          rw [if_pos (by omega)] at hf
          simp at hf
          omega)
      simpa using this
    · rw [if_neg h15]
      by_cases h65535 : kvs.length ≤ 65535
      · rw [if_pos h65535]
        simp only [List.cons_append, List.nil_append, List.append_assoc]
        rw [decodeOne_m_mapN (by omega) (show marker 222 = .mapN 2 from rfl)]
        rw [expectBytes_len (beBytes_length 2 _)]
        simp only [Bind.bind, Except.bind]
        rw [beVal_beBytes (show kvs.length < 256 ^ 2 by norm_num; omega)]
        have := decodeMapEntries_encodeObj kvs [] f rest hval hkey (by simpa using hsort)
          (by
            simp only [encMapLen] at hf
            rw [if_neg (by omega), if_pos (by omega)] at hf
            simp [beBytes_length] at hf
            omega)
        simpa using this
      · rw [if_neg h65535]
        simp only [List.cons_append, List.nil_append, List.append_assoc]
        rw [decodeOne_m_mapN (by omega) (show marker 223 = .mapN 4 from rfl)]
        rw [expectBytes_len (beBytes_length 4 _)]
        simp only [Bind.bind, Except.bind]
        rw [beVal_beBytes (show kvs.length < 256 ^ 4 by norm_num; omega)]
        have := decodeMapEntries_encodeObj kvs [] f rest hval hkey (by simpa using hsort)
          (by
            simp only [encMapLen] at hf
            rw [if_neg (by omega), if_neg (by omega)] at hf
            simp [beBytes_length] at hf
            omega)
        simpa using this

theorem utf8Encode_lt (s : List Char) : ∀ b ∈ utf8Encode s, b < 256 := by
  induction s with
  | nil => simp [utf8Encode]
  | cons c cs ih =>
    intro b hb
    rw [utf8Encode] at hb
    rcases List.mem_append.mp hb with hb | hb
    · exact utf8EncodeChar_lt c b hb
    · exact ih b hb

theorem encUint_lt (n : Nat) : ∀ b ∈ encUint n, b < 256 := by
  unfold encUint
  split_ifs with h1 h2 h3 h4 <;> intro b hb
  · rcases List.mem_singleton.mp hb with rfl; omega
  · simp only [List.mem_cons, List.not_mem_nil, or_false] at hb
    rcases hb with rfl | rfl <;> omega
  · rcases List.mem_cons.mp hb with rfl | hb
    · omega
    · exact beBytes_lt 2 n b hb
  · rcases List.mem_cons.mp hb with rfl | hb
    · omega
    · exact beBytes_lt 4 n b hb
  · rcases List.mem_cons.mp hb with rfl | hb
    · omega
    · exact beBytes_lt 8 n b hb

theorem encSint_lt (n : Int) (hn : n < 0) : ∀ b ∈ encSint n, b < 256 := by
  unfold encSint
  split_ifs with h1 h2 h3 h4 <;> intro b hb
  · rcases List.mem_singleton.mp hb with rfl; omega
  · simp only [List.mem_cons, List.not_mem_nil, or_false] at hb
    rcases hb with rfl | rfl <;> omega
  · rcases List.mem_cons.mp hb with rfl | hb
    · omega
    · exact beBytes_lt 2 _ b hb
  · rcases List.mem_cons.mp hb with rfl | hb
    · omega
    · exact beBytes_lt 4 _ b hb
  · rcases List.mem_cons.mp hb with rfl | hb
    · omega
    · exact beBytes_lt 8 _ b hb

theorem encStrBytes_lt (p : List Nat) (hp : ∀ b ∈ p, b < 256) :
    ∀ b ∈ encStrBytes p, b < 256 := by
  simp only [encStrBytes]
  have hmod : p.length % 2 ^ 32 < 2 ^ 32 := Nat.mod_lt _ (by norm_num)
  split_ifs with h1 h2 h3 <;> intro b hb <;> rcases List.mem_append.mp hb with hb | hb
  · rcases List.mem_singleton.mp hb with rfl; omega
  · exact hp b hb
  · simp only [List.mem_cons, List.not_mem_nil, or_false] at hb
    rcases hb with rfl | rfl <;> omega
  · exact hp b hb
  · rcases List.mem_cons.mp hb with rfl | hb
    · omega
    · exact beBytes_lt 2 _ b hb
  · exact hp b hb
  · rcases List.mem_cons.mp hb with rfl | hb
    · omega
    · exact beBytes_lt 4 _ b hb
  · exact hp b hb

theorem encArrayLen_lt (n : Nat) : ∀ b ∈ encArrayLen n, b < 256 := by
  simp only [encArrayLen]
  have hmod : n % 2 ^ 32 < 2 ^ 32 := Nat.mod_lt _ (by norm_num)
  split_ifs with h1 h2 <;> intro b hb
  · rcases List.mem_singleton.mp hb with rfl; omega
  · rcases List.mem_cons.mp hb with rfl | hb
    · omega
    · exact beBytes_lt 2 _ b hb
  · rcases List.mem_cons.mp hb with rfl | hb
    · omega
    · exact beBytes_lt 4 _ b hb

theorem encMapLen_lt (n : Nat) : ∀ b ∈ encMapLen n, b < 256 := by
  simp only [encMapLen]
  have hmod : n % 2 ^ 32 < 2 ^ 32 := Nat.mod_lt _ (by norm_num)
  split_ifs with h1 h2 <;> intro b hb
  · rcases List.mem_singleton.mp hb with rfl; omega
  · rcases List.mem_cons.mp hb with rfl | hb
    · omega
    · exact beBytes_lt 2 _ b hb
  · rcases List.mem_cons.mp hb with rfl | hb
    · omega
    · exact beBytes_lt 4 _ b hb

theorem encodeList_lt (xs : List Json) (ih : ∀ x ∈ xs, ∀ b ∈ encode x, b < 256) :
    ∀ b ∈ encodeList xs, b < 256 := by
  induction xs with
  | nil => simp [encodeList]
  | cons x xs ihx =>
    intro b hb
    rw [encodeList] at hb
    rcases List.mem_append.mp hb with hb | hb
    · exact ih x (List.mem_cons_self x xs) b hb
    · exact ihx (fun y hy => ih y (List.mem_cons_of_mem x hy)) b hb

theorem encodeObj_lt (kvs : List (List Char × Json))
    (ih : ∀ kv ∈ kvs, ∀ b ∈ encode kv.2, b < 256) :
    ∀ b ∈ encodeObj kvs, b < 256 := by
  induction kvs with
  | nil => simp [encodeObj]
  | cons kv kvs ihx =>
    intro b hb
    obtain ⟨k, v⟩ := kv
    rw [encodeObj] at hb
    rcases List.mem_append.mp hb with hb | hb
    · rcases List.mem_append.mp hb with hb | hb
      · exact encStrBytes_lt _ (utf8Encode_lt k) b hb
      · exact ih (k, v) (List.mem_cons_self _ kvs) b hb
    · exact ihx (fun y hy => ih y (List.mem_cons_of_mem (k, v) hy)) b hb

theorem encode_lt (v : Json) : ∀ b ∈ encode v, b < 256 := by
  induction v using Json.inductionOn with
  | hnull => intro b hb; rcases List.mem_singleton.mp hb with rfl; omega
  | hbool bb =>
    cases bb <;> intro b hb <;> rcases List.mem_singleton.mp hb with rfl <;> omega
  | hint n =>
    intro b hb
    simp only [encode] at hb
    split at hb
    · exact encUint_lt _ b hb
    · rename_i hneg
      exact encSint_lt n (by omega) b hb
  | hstr s =>
    intro b hb
    simp only [encode] at hb
    exact encStrBytes_lt _ (utf8Encode_lt s) b hb
  | harr xs ih =>
    intro b hb
    simp only [encode] at hb
    rcases List.mem_append.mp hb with hb | hb
    · exact encArrayLen_lt _ b hb
    · exact encodeList_lt xs ih b hb
  | hobj kvs ih =>
    intro b hb
    simp only [encode] at hb
    rcases List.mem_append.mp hb with hb | hb
    · exact encMapLen_lt _ b hb
    · exact encodeObj_lt kvs ih b hb


theorem isDigit_iff (c : Char) : c.isDigit = true ↔ 48 ≤ c.toNat ∧ c.toNat ≤ 57 := by
  simp only [Char.isDigit, Bool.and_eq_true, decide_eq_true_eq]
  constructor
  · rintro ⟨h1, h2⟩
    exact ⟨h1, h2⟩
  · rintro ⟨h1, h2⟩
    exact ⟨h1, h2⟩

theorem skipWs_space (s : List Char) : skipWs (' ' :: s) = skipWs s := by
  rw [skipWs, if_pos (by decide)]

theorem skipWs_replicate (k : Nat) (s : List Char) :
    skipWs (List.replicate k ' ' ++ s) = skipWs s := by
  induction k with
  | zero => rfl
  | succ k ih => rw [List.replicate_succ, List.cons_append, skipWs_space, ih]

theorem skipWs_nlIndent (l : Nat) (s : List Char) :
    skipWs (nlIndent l ++ s) = skipWs s := by
  rw [nlIndent, List.cons_append, skipWs, if_pos (by decide), skipWs_replicate]

theorem skipWs_nonws (c : Char) (s : List Char)
    (h : ¬(c = ' ' ∨ c = '\t' ∨ c = '\n' ∨ c = '\r')) : skipWs (c :: s) = c :: s := by
  rw [skipWs, if_neg h]

theorem digitChar_toNat (n : Nat) (h : n < 10) : (digitChar n).toNat = 48 + n := by
  interval_cases n <;> decide

theorem digitChar_isDigit (n : Nat) (h : n < 10) : (digitChar n).isDigit = true := by
  interval_cases n <;> decide

theorem digitsVal_append_one (a : List Char) (c : Char) :
    digitsVal (a ++ [c]) = digitsVal a * 10 + (c.toNat - 48) := by
  simp [digitsVal, List.foldl_append]

theorem natPr_ok (f : Nat) : ∀ n, n < 10 ^ (f + 1) →
    ∃ d ds, natPr (f + 1) n = d :: ds ∧ (∀ c ∈ d :: ds, c.isDigit = true) ∧
      (0 < n → d ≠ '0') ∧ digitsVal (d :: ds) = n := by
  induction f with
  | zero =>
    intro n hn
    have hn10 : n < 10 := by norm_num at hn; omega
    refine ⟨digitChar n, [], by rw [natPr, if_pos hn10], ?_, ?_, ?_⟩
    · intro c hc
      rcases List.mem_singleton.mp hc with rfl
      exact digitChar_isDigit n hn10
    · intro hpos heq
      have := congrArg Char.toNat heq
      rw [digitChar_toNat n hn10] at this
      simp only [show ('0').toNat = 48 from rfl] at this
      omega
    · simp [digitsVal, digitChar_toNat n hn10]
  | succ f ih =>
    intro n hn
    by_cases h10 : n < 10
    · refine ⟨digitChar n, [], by rw [natPr, if_pos h10], ?_, ?_, ?_⟩
      · intro c hc
        rcases List.mem_singleton.mp hc with rfl
        exact digitChar_isDigit n h10
      · intro hpos heq
        have := congrArg Char.toNat heq
        rw [digitChar_toNat n h10] at this
        simp only [show ('0').toNat = 48 from rfl] at this
        omega
      · simp [digitsVal, digitChar_toNat n h10]
    · have hdiv : n / 10 < 10 ^ (f + 1) := by
        rw [Nat.div_lt_iff_lt_mul (by norm_num)]
        calc n < 10 ^ (f + 1 + 1) := hn
        _ = 10 ^ (f + 1) * 10 := by ring
      obtain ⟨d, ds, heq, hdig, hnz, hval⟩ := ih (n / 10) hdiv
      refine ⟨d, ds ++ [digitChar (n % 10)], ?_, ?_, ?_, ?_⟩
      · rw [natPr, if_neg h10, heq, List.cons_append]
      · intro c hc
        rcases List.mem_cons.mp hc with rfl | hc
        · exact hdig _ (List.mem_cons_self _ _)
        · rcases List.mem_append.mp hc with hc | hc
          · exact hdig c (List.mem_cons_of_mem _ hc)
          · rcases List.mem_singleton.mp hc with rfl
            exact digitChar_isDigit _ (Nat.mod_lt n (by norm_num))
      · intro _; exact hnz (by omega)
      · rw [show d :: (ds ++ [digitChar (n % 10)]) = (d :: ds) ++ [digitChar (n % 10)]
          from rfl, digitsVal_append_one, hval,
          digitChar_toNat _ (Nat.mod_lt n (by norm_num))]
        omega

theorem natPrint_ok (n : Nat) (hn : n < 2 ^ 64) :
    ∃ d ds, natPrint n = d :: ds ∧ (∀ c ∈ d :: ds, c.isDigit = true) ∧
      (0 < n → d ≠ '0') ∧ digitsVal (d :: ds) = n := by
  have h : n < 10 ^ (29 + 1) := by
    calc n < 2 ^ 64 := hn
    _ ≤ 10 ^ 30 := by norm_num
  exact natPr_ok 29 n h



theorem dropWhile_digits (ds : List Char) (hds : ∀ c ∈ ds, c.isDigit = true) :
    ∀ s : List Char, (ds ++ s).dropWhile Char.isDigit = s.dropWhile Char.isDigit := by
  induction ds with
  | nil => intro s; rfl
  | cons d ds ih =>
    intro s
    rw [List.cons_append, List.dropWhile_cons]
    rw [hds d (List.mem_cons_self _ _)]
    simp only [ite_true]
    exact ih (fun c hc => hds c (List.mem_cons_of_mem _ hc)) s

theorem takeWhile_digits (ds : List Char) (hds : ∀ c ∈ ds, c.isDigit = true) :
    ∀ s : List Char, (ds ++ s).takeWhile Char.isDigit = ds ++ s.takeWhile Char.isDigit := by
  induction ds with
  | nil => intro s; rfl
  | cons d ds ih =>
    intro s
    rw [List.cons_append, List.takeWhile_cons]
    rw [hds d (List.mem_cons_self _ _)]
    simp only [ite_true, List.cons_append]
    rw [ih (fun c hc => hds c (List.mem_cons_of_mem _ hc)) s]

theorem dropWhile_headSafe (pre : List Char) (hpre : headSafe pre) :
    pre.dropWhile Char.isDigit = pre := by
  cases pre with
  | nil => rfl
  | cons c r =>
    rw [List.dropWhile_cons, hpre.1]
    simp

theorem takeWhile_headSafe (pre : List Char) (hpre : headSafe pre) :
    pre.takeWhile Char.isDigit = [] := by
  cases pre with
  | nil => rfl
  | cons c r =>
    rw [List.takeWhile_cons, hpre.1]
    simp

theorem parseNumAbs_print (n : Nat) (hn : n < 2 ^ 64) (pre : List Char)
    (hpre : headSafe pre) : parseNumAbs (natPrint n ++ pre) = .ok (n, pre) := by
  obtain ⟨d, ds, heq, hdig, hnz, hval⟩ := natPrint_ok n hn
  by_cases h0 : n = 0
  · subst h0
    have : natPrint 0 = ['0'] := rfl
    rw [this]
    cases pre with
    | nil => rfl
    | cons c r =>
      show parseNumAbs ('0' :: c :: r) = .ok (0, c :: r)
      rw [parseNumAbs, if_pos rfl]
      rw [hpre.1]
      simp only [Bool.false_eq_true, if_false]
      rw [if_neg (by push_neg; exact ⟨hpre.2.1, hpre.2.2.1, hpre.2.2.2⟩)]
  · have hpos : 0 < n := Nat.pos_of_ne_zero h0
    rw [heq, List.cons_append]
    simp only [parseNumAbs]
    rw [if_neg (hnz hpos), if_pos (hdig d (List.mem_cons_self _ _))]
    have hdsdig : ∀ c ∈ ds, c.isDigit = true := fun c hc => hdig c (List.mem_cons_of_mem _ hc)
    rw [dropWhile_digits ds hdsdig pre, dropWhile_headSafe pre hpre]
    rw [takeWhile_digits ds hdsdig pre, takeWhile_headSafe pre hpre, List.append_nil]
    cases pre with
    | nil =>
      show Except.ok (digitsVal (d :: ds), ([] : List Char)) = _
      rw [hval]
    | cons c r =>
      show (if c = '.' ∨ c = 'e' ∨ c = 'E' then
          Except.error "float literal, outside this model".data
        else Except.ok (digitsVal (d :: ds), c :: r)) = Except.ok (n, c :: r)
      rw [if_neg (by push_neg; exact ⟨hpre.2.1, hpre.2.2.1, hpre.2.2.2⟩), hval]

theorem parseNumber_print (n : Int) (h1 : -(2 ^ 63) ≤ n) (h2 : n < 2 ^ 64)
    (pre : List Char) (hpre : headSafe pre) :
    parseNumber (intPrint n ++ pre) = .ok (.int n, pre) := by
  by_cases hneg : n < 0
  · rw [intPrint, if_pos hneg, List.cons_append]
    have hm : (-n).toNat < 2 ^ 64 := by omega
    rw [show parseNumber ('-' :: (natPrint (-n).toNat ++ pre)) =
      (do
        let (m, rest) ← parseNumAbs (natPrint (-n).toNat ++ pre)
        if m = 0 then .error "negative zero is a float, outside this model".data
        else if m ≤ 2 ^ 63 then .ok (.int (-(m : Int)), rest)
        else .error "integer below the i64 range, outside this model".data) from rfl]
    rw [parseNumAbs_print _ hm pre hpre]
    rw [show ((do
        let (m, rest) ← (.ok ((-n).toNat, pre) : Except (List Char) (Nat × List Char))
        if m = 0 then .error "negative zero is a float, outside this model".data
        else if m ≤ 2 ^ 63 then .ok (.int (-(m : Int)), rest)
        else .error "integer below the i64 range, outside this model".data) :
        Except (List Char) (Json × List Char)) =
      (if (-n).toNat = 0 then .error "negative zero is a float, outside this model".data
        else if (-n).toNat ≤ 2 ^ 63 then .ok (.int (-(((-n).toNat : Nat) : Int)), pre)
        else .error "integer below the i64 range, outside this model".data) from rfl]
    rw [if_neg (by omega), if_pos (by omega)]
    rw [Int.toNat_of_nonneg (by omega), neg_neg]
  · push_neg at hneg
    rw [intPrint, if_neg (by omega)]
    have hm : n.toNat < 2 ^ 64 := by omega
    obtain ⟨d, ds, heq, hdig, hnz, hval⟩ := natPrint_ok n.toNat hm
    have hd : d.isDigit = true := hdig d (List.mem_cons_self _ _)
    have hdne : d ≠ '-' := by
      intro h
      rw [isDigit_iff] at hd
      rw [h] at hd
      revert hd
      decide
    rw [parseNumber]
    · rw [parseNumAbs_print n.toNat hm pre hpre]
      show (if n.toNat < 2 ^ 64 then Except.ok (Json.int (n.toNat : Int), pre)
        else Except.error "integer above the u64 range, outside this model".data) = _
      rw [if_pos hm, Int.toNat_of_nonneg (by omega)]
    · intro r hr
      apply hdne
      rw [heq, List.cons_append] at hr
      exact ((List.cons.injEq _ _ _ _).mp hr).1

theorem hexVal_hexDigitLower (d : Nat) (h : d < 16) :
    hexVal (hexDigitLower d) = some d := by
  interval_cases d <;> decide

theorem psb_quote (f : Nat) (E : List Char) : parseStringBody (f + 1) ('\\' :: '"' :: E)
    = (parseStringBody f E).map (fun p => ('"' :: p.1, p.2)) := rfl

theorem psb_backslash (f : Nat) (E : List Char) : parseStringBody (f + 1) ('\\' :: '\\' :: E)
    = (parseStringBody f E).map (fun p => ('\\' :: p.1, p.2)) := rfl

theorem psb_b (f : Nat) (E : List Char) : parseStringBody (f + 1) ('\\' :: 'b' :: E)
    = (parseStringBody f E).map (fun p => (Char.ofNat 8 :: p.1, p.2)) := rfl

theorem psb_f (f : Nat) (E : List Char) : parseStringBody (f + 1) ('\\' :: 'f' :: E)
    = (parseStringBody f E).map (fun p => (Char.ofNat 12 :: p.1, p.2)) := rfl

theorem psb_n (f : Nat) (E : List Char) : parseStringBody (f + 1) ('\\' :: 'n' :: E)
    = (parseStringBody f E).map (fun p => ('\n' :: p.1, p.2)) := rfl

theorem psb_r (f : Nat) (E : List Char) : parseStringBody (f + 1) ('\\' :: 'r' :: E)
    = (parseStringBody f E).map (fun p => (Char.ofNat 13 :: p.1, p.2)) := rfl

theorem psb_t (f : Nat) (E : List Char) : parseStringBody (f + 1) ('\\' :: 't' :: E)
    = (parseStringBody f E).map (fun p => ('\t' :: p.1, p.2)) := rfl

theorem psb_plain (f : Nat) (c : Char) (E : List Char) (hq : c ≠ '"') (hb : c ≠ '\\')
    (hc : ¬c.toNat < 32) : parseStringBody (f + 1) (c :: E)
      = (parseStringBody f E).map (fun p => (c :: p.1, p.2)) := by
  simp only [parseStringBody]
  rw [if_neg hq, if_neg hb, if_neg hc]

theorem psbEsc_0 (f : Nat) (E : List Char) :
    parseStringBody (f + 1) (escapeChar (Char.ofNat 0) ++ E)
      = (parseStringBody f E).map (fun p => (Char.ofNat 0 :: p.1, p.2)) := rfl

theorem psbEsc_1 (f : Nat) (E : List Char) :
    parseStringBody (f + 1) (escapeChar (Char.ofNat 1) ++ E)
      = (parseStringBody f E).map (fun p => (Char.ofNat 1 :: p.1, p.2)) := rfl

theorem psbEsc_2 (f : Nat) (E : List Char) :
    parseStringBody (f + 1) (escapeChar (Char.ofNat 2) ++ E)
      = (parseStringBody f E).map (fun p => (Char.ofNat 2 :: p.1, p.2)) := rfl

theorem psbEsc_3 (f : Nat) (E : List Char) :
    parseStringBody (f + 1) (escapeChar (Char.ofNat 3) ++ E)
      = (parseStringBody f E).map (fun p => (Char.ofNat 3 :: p.1, p.2)) := rfl

theorem psbEsc_4 (f : Nat) (E : List Char) :
    parseStringBody (f + 1) (escapeChar (Char.ofNat 4) ++ E)
      = (parseStringBody f E).map (fun p => (Char.ofNat 4 :: p.1, p.2)) := rfl

theorem psbEsc_5 (f : Nat) (E : List Char) :
    parseStringBody (f + 1) (escapeChar (Char.ofNat 5) ++ E)
      = (parseStringBody f E).map (fun p => (Char.ofNat 5 :: p.1, p.2)) := rfl

theorem psbEsc_6 (f : Nat) (E : List Char) :
    parseStringBody (f + 1) (escapeChar (Char.ofNat 6) ++ E)
      = (parseStringBody f E).map (fun p => (Char.ofNat 6 :: p.1, p.2)) := rfl

theorem psbEsc_7 (f : Nat) (E : List Char) :
    parseStringBody (f + 1) (escapeChar (Char.ofNat 7) ++ E)
      = (parseStringBody f E).map (fun p => (Char.ofNat 7 :: p.1, p.2)) := rfl

theorem psbEsc_8 (f : Nat) (E : List Char) :
    parseStringBody (f + 1) (escapeChar (Char.ofNat 8) ++ E)
      = (parseStringBody f E).map (fun p => (Char.ofNat 8 :: p.1, p.2)) := rfl

theorem psbEsc_9 (f : Nat) (E : List Char) :
    parseStringBody (f + 1) (escapeChar (Char.ofNat 9) ++ E)
      = (parseStringBody f E).map (fun p => (Char.ofNat 9 :: p.1, p.2)) := rfl

theorem psbEsc_10 (f : Nat) (E : List Char) :
    parseStringBody (f + 1) (escapeChar (Char.ofNat 10) ++ E)
      = (parseStringBody f E).map (fun p => (Char.ofNat 10 :: p.1, p.2)) := rfl

theorem psbEsc_11 (f : Nat) (E : List Char) :
    parseStringBody (f + 1) (escapeChar (Char.ofNat 11) ++ E)
      = (parseStringBody f E).map (fun p => (Char.ofNat 11 :: p.1, p.2)) := rfl

theorem psbEsc_12 (f : Nat) (E : List Char) :
    parseStringBody (f + 1) (escapeChar (Char.ofNat 12) ++ E)
      = (parseStringBody f E).map (fun p => (Char.ofNat 12 :: p.1, p.2)) := rfl

theorem psbEsc_13 (f : Nat) (E : List Char) :
    parseStringBody (f + 1) (escapeChar (Char.ofNat 13) ++ E)
      = (parseStringBody f E).map (fun p => (Char.ofNat 13 :: p.1, p.2)) := rfl

theorem psbEsc_14 (f : Nat) (E : List Char) :
    parseStringBody (f + 1) (escapeChar (Char.ofNat 14) ++ E)
      = (parseStringBody f E).map (fun p => (Char.ofNat 14 :: p.1, p.2)) := rfl

theorem psbEsc_15 (f : Nat) (E : List Char) :
    parseStringBody (f + 1) (escapeChar (Char.ofNat 15) ++ E)
      = (parseStringBody f E).map (fun p => (Char.ofNat 15 :: p.1, p.2)) := rfl

theorem psbEsc_16 (f : Nat) (E : List Char) :
    parseStringBody (f + 1) (escapeChar (Char.ofNat 16) ++ E)
      = (parseStringBody f E).map (fun p => (Char.ofNat 16 :: p.1, p.2)) := rfl

theorem psbEsc_17 (f : Nat) (E : List Char) :
    parseStringBody (f + 1) (escapeChar (Char.ofNat 17) ++ E)
      = (parseStringBody f E).map (fun p => (Char.ofNat 17 :: p.1, p.2)) := rfl

theorem psbEsc_18 (f : Nat) (E : List Char) :
    parseStringBody (f + 1) (escapeChar (Char.ofNat 18) ++ E)
      = (parseStringBody f E).map (fun p => (Char.ofNat 18 :: p.1, p.2)) := rfl

theorem psbEsc_19 (f : Nat) (E : List Char) :
    parseStringBody (f + 1) (escapeChar (Char.ofNat 19) ++ E)
      = (parseStringBody f E).map (fun p => (Char.ofNat 19 :: p.1, p.2)) := rfl

theorem psbEsc_20 (f : Nat) (E : List Char) :
    parseStringBody (f + 1) (escapeChar (Char.ofNat 20) ++ E)
      = (parseStringBody f E).map (fun p => (Char.ofNat 20 :: p.1, p.2)) := rfl

theorem psbEsc_21 (f : Nat) (E : List Char) :
    parseStringBody (f + 1) (escapeChar (Char.ofNat 21) ++ E)
      = (parseStringBody f E).map (fun p => (Char.ofNat 21 :: p.1, p.2)) := rfl

theorem psbEsc_22 (f : Nat) (E : List Char) :
    parseStringBody (f + 1) (escapeChar (Char.ofNat 22) ++ E)
      = (parseStringBody f E).map (fun p => (Char.ofNat 22 :: p.1, p.2)) := rfl

theorem psbEsc_23 (f : Nat) (E : List Char) :
    parseStringBody (f + 1) (escapeChar (Char.ofNat 23) ++ E)
      = (parseStringBody f E).map (fun p => (Char.ofNat 23 :: p.1, p.2)) := rfl

theorem psbEsc_24 (f : Nat) (E : List Char) :
    parseStringBody (f + 1) (escapeChar (Char.ofNat 24) ++ E)
      = (parseStringBody f E).map (fun p => (Char.ofNat 24 :: p.1, p.2)) := rfl

theorem psbEsc_25 (f : Nat) (E : List Char) :
    parseStringBody (f + 1) (escapeChar (Char.ofNat 25) ++ E)
      = (parseStringBody f E).map (fun p => (Char.ofNat 25 :: p.1, p.2)) := rfl

theorem psbEsc_26 (f : Nat) (E : List Char) :
    parseStringBody (f + 1) (escapeChar (Char.ofNat 26) ++ E)
      = (parseStringBody f E).map (fun p => (Char.ofNat 26 :: p.1, p.2)) := rfl

theorem psbEsc_27 (f : Nat) (E : List Char) :
    parseStringBody (f + 1) (escapeChar (Char.ofNat 27) ++ E)
      = (parseStringBody f E).map (fun p => (Char.ofNat 27 :: p.1, p.2)) := rfl

theorem psbEsc_28 (f : Nat) (E : List Char) :
    parseStringBody (f + 1) (escapeChar (Char.ofNat 28) ++ E)
      = (parseStringBody f E).map (fun p => (Char.ofNat 28 :: p.1, p.2)) := rfl

theorem psbEsc_29 (f : Nat) (E : List Char) :
    parseStringBody (f + 1) (escapeChar (Char.ofNat 29) ++ E)
      = (parseStringBody f E).map (fun p => (Char.ofNat 29 :: p.1, p.2)) := rfl

theorem psbEsc_30 (f : Nat) (E : List Char) :
    parseStringBody (f + 1) (escapeChar (Char.ofNat 30) ++ E)
      = (parseStringBody f E).map (fun p => (Char.ofNat 30 :: p.1, p.2)) := rfl

theorem psbEsc_31 (f : Nat) (E : List Char) :
    parseStringBody (f + 1) (escapeChar (Char.ofNat 31) ++ E)
      = (parseStringBody f E).map (fun p => (Char.ofNat 31 :: p.1, p.2)) := rfl

theorem escapeChar_length_pos (c : Char) : 1 ≤ (escapeChar c).length := by
  rw [escapeChar]
  split_ifs <;> simp

theorem escString_length (s : List Char) : s.length ≤ (escString s).length := by
  induction s with
  | nil => simp [escString]
  | cons c cs ih =>
    rw [escString, List.length_append, List.length_cons]
    have := escapeChar_length_pos c
    omega

theorem parseStringBody_esc (s : List Char) : ∀ (f : Nat) (rest : List Char), s.length < f →
    parseStringBody f (escString s ++ '"' :: rest) = .ok (s, rest) := by
  induction s with
  | nil =>
    intro f rest hf
    obtain ⟨g, rfl⟩ : ∃ g, f = g + 1 := ⟨f - 1, by omega⟩
    rfl
  | cons c cs ih =>
    intro f rest hf
    obtain ⟨g, rfl⟩ : ∃ g, f = g + 1 := ⟨f - 1, by omega⟩
    have hg : cs.length < g := by simp only [List.length_cons] at hf; omega
    rw [escString, List.append_assoc]
    by_cases hq : c = '"'
    · subst hq
      rw [show escapeChar '"' ++ (escString cs ++ '"' :: rest)
          = '\\' :: '"' :: (escString cs ++ '"' :: rest) from rfl,
        psb_quote, ih g rest hg]
      rfl
    · by_cases hb : c = '\\'
      · subst hb
        rw [show escapeChar '\\' ++ (escString cs ++ '"' :: rest)
            = '\\' :: '\\' :: (escString cs ++ '"' :: rest) from rfl,
          psb_backslash, ih g rest hg]
        rfl
      · by_cases h32 : c.toNat < 32
        · obtain ⟨k, hk⟩ : ∃ k, c.toNat = k := ⟨c.toNat, rfl⟩
          have hc : c = Char.ofNat k := by rw [← hk, Char.ofNat_toNat]
          subst hc
          have hk32 : k < 32 := hk ▸ h32
          interval_cases k
          · rw [psbEsc_0, ih g rest hg]; rfl
          · rw [psbEsc_1, ih g rest hg]; rfl
          · rw [psbEsc_2, ih g rest hg]; rfl
          · rw [psbEsc_3, ih g rest hg]; rfl
          · rw [psbEsc_4, ih g rest hg]; rfl
          · rw [psbEsc_5, ih g rest hg]; rfl
          · rw [psbEsc_6, ih g rest hg]; rfl
          · rw [psbEsc_7, ih g rest hg]; rfl
          · rw [psbEsc_8, ih g rest hg]; rfl
          · rw [psbEsc_9, ih g rest hg]; rfl
          · rw [psbEsc_10, ih g rest hg]; rfl
          · rw [psbEsc_11, ih g rest hg]; rfl
          · rw [psbEsc_12, ih g rest hg]; rfl
          · rw [psbEsc_13, ih g rest hg]; rfl
          · rw [psbEsc_14, ih g rest hg]; rfl
          · rw [psbEsc_15, ih g rest hg]; rfl
          · rw [psbEsc_16, ih g rest hg]; rfl
          · rw [psbEsc_17, ih g rest hg]; rfl
          · rw [psbEsc_18, ih g rest hg]; rfl
          · rw [psbEsc_19, ih g rest hg]; rfl
          · rw [psbEsc_20, ih g rest hg]; rfl
          · rw [psbEsc_21, ih g rest hg]; rfl
          · rw [psbEsc_22, ih g rest hg]; rfl
          · rw [psbEsc_23, ih g rest hg]; rfl
          · rw [psbEsc_24, ih g rest hg]; rfl
          · rw [psbEsc_25, ih g rest hg]; rfl
          · rw [psbEsc_26, ih g rest hg]; rfl
          · rw [psbEsc_27, ih g rest hg]; rfl
          · rw [psbEsc_28, ih g rest hg]; rfl
          · rw [psbEsc_29, ih g rest hg]; rfl
          · rw [psbEsc_30, ih g rest hg]; rfl
          · rw [psbEsc_31, ih g rest hg]; rfl
        · rw [show escapeChar c = [c] from by
              rw [escapeChar, if_neg hq, if_neg hb, if_neg (by omega), if_neg (by omega),
                if_neg (by omega), if_neg (by omega), if_neg (by omega), if_neg h32],
            List.cons_append, List.nil_append, psb_plain g c _ hq hb h32, ih g rest hg]
          rfl

theorem wfList_of_mem (xs : List Json) (h : ∀ x ∈ xs, wf x = true) : wfList xs = true := by
  induction xs with
  | nil => rfl
  | cons y ys ih =>
    rw [wfList, Bool.and_eq_true]
    exact ⟨h y (List.mem_cons_self _ _), ih (fun x hx => h x (List.mem_cons_of_mem _ hx))⟩

theorem mapInsert_wfObj (k : List Char) (v : Json) (kvs : List (List Char × Json))
    (hv : wf v = true) (h : wfObj kvs = true) : wfObj (mapInsert k v kvs) = true := by
  induction kvs with
  | nil => simp [mapInsert, wfObj, hv]
  | cons a kvs ih =>
    obtain ⟨k', v'⟩ := a
    rw [wfObj, Bool.and_eq_true] at h
    rw [mapInsert]
    split_ifs with h1 h2
    · rw [wfObj, Bool.and_eq_true]
      refine ⟨hv, ?_⟩
      rw [wfObj, Bool.and_eq_true]
      exact ⟨h.1, h.2⟩
    · rw [wfObj, Bool.and_eq_true]
      exact ⟨hv, h.2⟩
    · rw [wfObj, Bool.and_eq_true]
      exact ⟨h.1, ih h.2⟩

theorem parseNumber_wf (s : List Char) (v : Json) (rest : List Char)
    (h : parseNumber s = .ok (v, rest)) : wf v = true := by
  rw [parseNumber.eq_def] at h
  split at h
  · cases hpa : parseNumAbs _ with
    | error e =>
      rw [hpa] at h
      simp only [Bind.bind, Except.bind] at h
      exact absurd h (by simp)
    | ok p =>
      obtain ⟨m, rest'⟩ := p
      rw [hpa] at h
      simp only [Bind.bind, Except.bind] at h
      split at h
      · exact absurd h (by simp)
      · split at h
        · simp only [Except.ok.injEq, Prod.mk.injEq] at h
          obtain ⟨h1, h2⟩ := h
          subst h1
          simp only [wf, Bool.and_eq_true, decide_eq_true_eq]
          omega
        · exact absurd h (by simp)
  · cases hpa : parseNumAbs _ with
    | error e =>
      rw [hpa] at h
      simp only [Bind.bind, Except.bind] at h
      exact absurd h (by simp)
    | ok p =>
      obtain ⟨m, rest'⟩ := p
      rw [hpa] at h
      simp only [Bind.bind, Except.bind] at h
      split at h
      · simp only [Except.ok.injEq, Prod.mk.injEq] at h
        obtain ⟨h1, h2⟩ := h
        subst h1
        simp only [wf, Bool.and_eq_true, decide_eq_true_eq]
        rename_i hm
        constructor
        · omega
        · exact_mod_cast hm
      · exact absurd h (by simp)

theorem parse_wf_all : ∀ f : Nat,
    (∀ s v rest, parseValue f s = .ok (v, rest) → wf v = true) ∧
    (∀ acc s v rest, (∀ x ∈ acc, wf x = true) →
      parseArrayElems f acc s = .ok (v, rest) → wf v = true) ∧
    (∀ acc s v rest, sortedKeys acc = true → wfObj acc = true →
      parseObjElems f acc s = .ok (v, rest) → wf v = true) := by
  intro f
  induction f with
  | zero =>
    refine ⟨?_, ?_, ?_⟩
    · intro s v rest h
      exact absurd h (by rw [parseValue]; simp)
    · intro acc s v rest _ h
      exact absurd h (by rw [parseArrayElems]; simp)
    · intro acc s v rest _ _ h
      exact absurd h (by rw [parseObjElems]; simp)
  | succ f ih =>
    obtain ⟨ihV, ihA, ihO⟩ := ih
    refine ⟨?_, ?_, ?_⟩
    · -- parseValue
      intro s v rest h
      cases hsw : skipWs s with
      | nil => rw [parseValue, hsw] at h; exact absurd h (by simp)
      | cons c r =>
        simp only [parseValue, hsw] at h
        by_cases hn : c = 'n'
        · rw [if_pos hn] at h
          split at h
          · simp only [Except.ok.injEq, Prod.mk.injEq] at h
            obtain ⟨h1, _⟩ := h
            subst h1
            rfl
          · exact absurd h (by simp)
        · rw [if_neg hn] at h
          by_cases ht : c = 't'
          · rw [if_pos ht] at h
            split at h
            · simp only [Except.ok.injEq, Prod.mk.injEq] at h
              obtain ⟨h1, _⟩ := h
              subst h1
              rfl
            · exact absurd h (by simp)
          · rw [if_neg ht] at h
            by_cases hfa : c = 'f'
            · rw [if_pos hfa] at h
              split at h
              · simp only [Except.ok.injEq, Prod.mk.injEq] at h
                obtain ⟨h1, _⟩ := h
                subst h1
                rfl
              · exact absurd h (by simp)
            · rw [if_neg hfa] at h
              by_cases hq : c = '"'
              · rw [if_pos hq] at h
                cases hps : parseStringBody (r.length + 1) r with
                | error e => rw [hps] at h; exact absurd h (by simp [Except.map])
                | ok p =>
                  rw [hps] at h
                  simp only [Except.map, Except.ok.injEq, Prod.mk.injEq] at h
                  obtain ⟨h1, _⟩ := h
                  subst h1
                  rfl
              · rw [if_neg hq] at h
                by_cases hlb : c = '['
                · rw [if_pos hlb] at h
                  split at h
                  · simp only [Except.ok.injEq, Prod.mk.injEq] at h
                    obtain ⟨h1, _⟩ := h
                    subst h1
                    rfl
                  · exact ihA [] r v rest (by simp) h
                · rw [if_neg hlb] at h
                  by_cases hcb : c = '\x7b'
                  · rw [if_pos hcb] at h
                    split at h
                    · simp only [Except.ok.injEq, Prod.mk.injEq] at h
                      obtain ⟨h1, _⟩ := h
                      subst h1
                      rfl
                    · exact ihO [] r v rest rfl rfl h
                  · rw [if_neg hcb] at h
                    by_cases hnum : c = '-' ∨ c.isDigit
                    · rw [if_pos hnum] at h
                      exact parseNumber_wf _ _ _ h
                    · rw [if_neg hnum] at h
                      exact absurd h (by simp)
    · -- parseArrayElems
      intro acc s v rest hacc h
      rw [parseArrayElems] at h
      cases hpv : parseValue f s with
      | error e =>
        rw [hpv] at h
        simp only [Bind.bind, Except.bind] at h
        exact absurd h (by simp)
      | ok p =>
        obtain ⟨v1, s1⟩ := p
        rw [hpv] at h
        simp only [Bind.bind, Except.bind] at h
        have hv1 : wf v1 = true := ihV s v1 s1 hpv
        split at h
        · exact ihA (v1 :: acc) _ v rest
            (by
              intro x hx
              rcases List.mem_cons.mp hx with rfl | hx
              · exact hv1
              · exact hacc x hx) h
        · simp only [Except.ok.injEq, Prod.mk.injEq] at h
          obtain ⟨h1, _⟩ := h
          subst h1
          rw [wf]
          refine wfList_of_mem _ ?_
          intro x hx
          rw [List.mem_reverse] at hx
          rcases List.mem_cons.mp hx with rfl | hx
          · exact hv1
          · exact hacc x hx
        · exact absurd h (by simp)
    · -- parseObjElems
      intro acc s v rest hsort hwfo h
      cases hsw : skipWs s with
      | nil => rw [parseObjElems] at h; rw [hsw] at h; exact absurd h (by simp)
      | cons c r =>
        by_cases hq : c = '"'
        · subst hq
          simp only [parseObjElems, hsw] at h
          cases hps : parseStringBody (r.length + 1) r with
          | error e =>
            rw [hps] at h
            simp only [Bind.bind, Except.bind] at h
            exact absurd h (by simp)
          | ok p =>
            obtain ⟨k, s1⟩ := p
            rw [hps] at h
            simp only [Bind.bind, Except.bind] at h
            split at h
            · cases hpv : parseValue f _ with
              | error e =>
                rw [hpv] at h
                simp only [Bind.bind, Except.bind] at h
                exact absurd h (by simp)
              | ok p2 =>
                obtain ⟨v1, s3⟩ := p2
                rw [hpv] at h
                simp only [Bind.bind, Except.bind] at h
                have hv1 : wf v1 = true := ihV _ v1 s3 hpv
                split at h
                · exact ihO (mapInsert k v1 acc) _ v rest
                    (mapInsert_sorted hsort) (mapInsert_wfObj k v1 acc hv1 hwfo) h
                · simp only [Except.ok.injEq, Prod.mk.injEq] at h
                  obtain ⟨h1, _⟩ := h
                  subst h1
                  rw [wf, Bool.and_eq_true]
                  exact ⟨mapInsert_sorted hsort, mapInsert_wfObj k v1 acc hv1 hwfo⟩
                · exact absurd h (by simp)
            · exact absurd h (by simp)
        · -- key not a string
          simp only [parseObjElems, hsw] at h
          split at h
          · rename_i heq
            rw [List.cons.injEq] at heq
            exact absurd heq.1 hq
          · exact absurd h (by simp)


theorem parseJson_wf (j : List Char) (v : Json) (h : parseJson j = .ok v) : wf v = true := by
  rw [parseJson] at h
  cases hpv : parseValue (j.length + 1) j with
  | error e => rw [hpv] at h; exact absurd h (by simp)
  | ok p =>
    obtain ⟨v1, rest⟩ := p
    rw [hpv] at h
    split at h
    · rename_i v2 rest2 heq
      simp only [Except.ok.injEq, Prod.mk.injEq] at heq
      obtain ⟨hv2, hrest2⟩ := heq
      split at h
      · simp only [Except.ok.injEq] at h
        rw [← h, ← hv2]
        exact (parse_wf_all _).1 j v1 rest hpv
      · exact absurd h (by simp)
    · exact absurd h (by simp)

theorem headSafe_cons (c : Char) (l : List Char) (h1 : c.isDigit = false) (h2 : c ≠ '.')
    (h3 : c ≠ 'e') (h4 : c ≠ 'E') : headSafe (c :: l) := ⟨h1, h2, h3, h4⟩

theorem headSafe_comma (l : List Char) : headSafe (',' :: l) :=
  headSafe_cons _ _ (by decide) (by decide) (by decide) (by decide)

theorem headSafe_nlIndent (lvl : Nat) (l : List Char) : headSafe (nlIndent lvl ++ l) :=
  headSafe_cons _ _ (by decide) (by decide) (by decide) (by decide)

theorem nlIndent_length (lvl : Nat) : (nlIndent lvl).length = 2 * lvl + 1 := by
  simp [nlIndent]

theorem natPr_length_pos (f n : Nat) : 1 ≤ (natPr (f + 1) n).length := by
  rw [natPr]
  split_ifs
  · simp
  · simp

theorem prettyAt_length_pos (lvl : Nat) (v : Json) : 1 ≤ (prettyAt lvl v).length := by
  cases v with
  | null => simp [prettyAt]
  | bool b => cases b <;> simp [prettyAt]
  | int n =>
    rw [prettyAt, intPrint]
    split_ifs
    · simp
    · exact natPr_length_pos 29 _
  | str s => simp [prettyAt, quoteString]
  | arr xs => cases xs <;> simp [prettyAt]
  | obj kvs =>
    cases kvs with
    | nil => simp [prettyAt]
    | cons kv kvs => obtain ⟨k, v⟩ := kv; simp [prettyAt]

theorem startChar_not_ws (c : Char) (h : startChar c = true) :
    ¬(c = ' ' ∨ c = '\t' ∨ c = '\n' ∨ c = '\r') := by
  rw [startChar] at h
  simp only [Bool.or_eq_true, decide_eq_true_eq] at h
  intro hc
  have hn : c.toNat = 32 ∨ c.toNat = 9 ∨ c.toNat = 10 ∨ c.toNat = 13 := by
    rcases hc with rfl | rfl | rfl | rfl <;> simp
  rcases h with (((((((rfl | rfl) | rfl) | rfl) | rfl) | rfl) | rfl) | h)
  all_goals first
  | (revert hn; decide)
  | (rw [isDigit_iff] at h; omega)

theorem startChar_ne_rb (c : Char) (h : startChar c = true) : c ≠ ']' := by
  rw [startChar] at h
  simp only [Bool.or_eq_true, decide_eq_true_eq] at h
  intro hc
  subst hc
  revert h
  decide

theorem startChar_ne_cb (c : Char) (h : startChar c = true) : c ≠ '\x7d' := by
  rw [startChar] at h
  simp only [Bool.or_eq_true, decide_eq_true_eq] at h
  intro hc
  subst hc
  revert h
  decide

theorem prettyAt_shape (v : Json) (hwf : wf v = true) (lvl : Nat) :
    ∃ c t, prettyAt lvl v = c :: t ∧ startChar c = true := by
  cases v with
  | null => exact ⟨'n', _, rfl, by decide⟩
  | bool b =>
    cases b
    · exact ⟨'f', _, rfl, by decide⟩
    · exact ⟨'t', _, rfl, by decide⟩
  | int n =>
    rw [prettyAt, intPrint]
    by_cases hneg : n < 0
    · rw [if_pos hneg]
      exact ⟨'-', _, rfl, by decide⟩
    · rw [if_neg hneg]
      simp only [wf, Bool.and_eq_true, decide_eq_true_eq] at hwf
      obtain ⟨d, ds, heq, hdig, _, _⟩ := natPrint_ok n.toNat (by omega)
      refine ⟨d, ds, heq, ?_⟩
      rw [startChar, hdig d (List.mem_cons_self _ _)]
      simp
  | str s => exact ⟨'"', _, rfl, by decide⟩
  | arr xs =>
    cases xs with
    | nil => exact ⟨'[', _, rfl, by decide⟩
    | cons x xs => exact ⟨'[', _, rfl, by decide⟩
  | obj kvs =>
    cases kvs with
    | nil => exact ⟨'\x7b', _, rfl, by decide⟩
    | cons kv kvs =>
      obtain ⟨k, v⟩ := kv
      exact ⟨'\x7b', _, rfl, by decide⟩

theorem parseValue_ws (f lvl : Nat) (s : List Char) :
    parseValue (f + 1) (nlIndent lvl ++ s) = parseValue (f + 1) s := by
  simp only [parseValue, skipWs_nlIndent]

theorem parseValue_space (f : Nat) (s : List Char) :
    parseValue (f + 1) (' ' :: s) = parseValue (f + 1) s := by
  simp only [parseValue, skipWs_space]

theorem pv_null (g : Nat) (pre : List Char) :
    parseValue (g + 1) ('n' :: 'u' :: 'l' :: 'l' :: pre) = .ok (.null, pre) := rfl

theorem pv_true (g : Nat) (pre : List Char) :
    parseValue (g + 1) ('t' :: 'r' :: 'u' :: 'e' :: pre) = .ok (.bool true, pre) := rfl

theorem pv_false (g : Nat) (pre : List Char) :
    parseValue (g + 1) ('f' :: 'a' :: 'l' :: 's' :: 'e' :: pre) = .ok (.bool false, pre) := rfl

theorem pv_emptyArr (g : Nat) (pre : List Char) :
    parseValue (g + 1) ('[' :: ']' :: pre) = .ok (.arr [], pre) := rfl

theorem pv_emptyObj (g : Nat) (pre : List Char) :
    parseValue (g + 1) ('\x7b' :: '\x7d' :: pre) = .ok (.obj [], pre) := rfl

theorem digit_not_ws (c : Char) (h : c.isDigit = true) :
    ¬(c = ' ' ∨ c = '\t' ∨ c = '\n' ∨ c = '\r') := by
  rw [isDigit_iff] at h
  intro hc
  have : c.toNat = 32 ∨ c.toNat = 9 ∨ c.toNat = 10 ∨ c.toNat = 13 := by
    rcases hc with rfl | rfl | rfl | rfl <;> simp
  omega

theorem pv_int (n : Int) (h1 : -(2 ^ 63) ≤ n) (h2 : n < 2 ^ 64) (g : Nat) (pre : List Char)
    (hpre : headSafe pre) :
    parseValue (g + 1) (intPrint n ++ pre) = .ok (.int n, pre) := by
  by_cases hneg : n < 0
  · rw [intPrint, if_pos hneg, List.cons_append]
    simp only [parseValue, skipWs_nonws '-' _ (by decide)]
    rw [if_neg (by decide), if_neg (by decide), if_neg (by decide), if_neg (by decide),
      if_neg (by decide), if_neg (by decide), if_pos (Or.inl trivial)]
    rw [show ('-' :: (natPrint (-n).toNat ++ pre)) = intPrint n ++ pre from by
      rw [intPrint, if_pos hneg, List.cons_append]]
    exact parseNumber_print n h1 h2 pre hpre
  · have hnn : intPrint n = natPrint n.toNat := by rw [intPrint, if_neg hneg]
    obtain ⟨d, ds, heq, hdig, hnz, hval⟩ := natPrint_ok n.toNat (by omega)
    have hd : d.isDigit = true := hdig d (List.mem_cons_self _ _)
    rw [hnn, heq, List.cons_append]
    simp only [parseValue, skipWs_nonws d _ (digit_not_ws d hd)]
    rw [if_neg (by intro hc; rw [hc] at hd; revert hd; decide),
      if_neg (by intro hc; rw [hc] at hd; revert hd; decide),
      if_neg (by intro hc; rw [hc] at hd; revert hd; decide),
      if_neg (by intro hc; rw [hc] at hd; revert hd; decide),
      if_neg (by intro hc; rw [hc] at hd; revert hd; decide),
      if_neg (by intro hc; rw [hc] at hd; revert hd; decide),
      if_pos (Or.inr hd)]
    rw [show (d :: (ds ++ pre)) = intPrint n ++ pre from by
      rw [hnn, heq, List.cons_append]]
    exact parseNumber_print n h1 h2 pre hpre

theorem pv_str (s : List Char) (g : Nat) (pre : List Char) :
    parseValue (g + 1) (quoteString s ++ pre) = .ok (.str s, pre) := by
  have hq : quoteString s ++ pre = '"' :: (escString s ++ '"' :: pre) := by
    simp [quoteString]
  rw [hq]
  simp only [parseValue, skipWs_nonws '"' _ (by decide)]
  rw [if_neg (by decide), if_neg (by decide), if_neg (by decide), if_pos trivial]
  rw [parseStringBody_esc s _ pre (by
    have := escString_length s
    simp only [List.length_append, List.length_cons]
    omega)]
  rfl

theorem parseArrayElems_pretty (lvl : Nat) (xs : List Json) :
    ∀ (x : Json) (acc : List Json) (tail pre : List Char) (f : Nat),
      (∀ y ∈ x :: xs, ∀ (pre' : List Char) (f' : Nat), headSafe pre' →
          (prettyAt lvl y).length < f' →
          parseValue f' (prettyAt lvl y ++ pre') = .ok (y, pre')) →
      skipWs tail = ']' :: pre →
      headSafe tail →
      (prettyAt lvl x).length + (prettyArr lvl xs).length + 1 < f →
      parseArrayElems f acc (nlIndent lvl ++ (prettyAt lvl x ++ (prettyArr lvl xs ++ tail)))
        = .ok (.arr (acc.reverse ++ x :: xs), pre) := by
  induction xs with
  | nil =>
    intro x acc tail pre f hel hskip htail hf
    obtain ⟨g, rfl⟩ : ∃ g, f = g + 1 := ⟨f - 1, by omega⟩
    obtain ⟨g', rfl⟩ : ∃ g'', g = g'' + 1 := ⟨g - 1, by
      have := prettyAt_length_pos lvl x
      omega⟩
    rw [parseArrayElems, parseValue_ws]
    rw [show prettyArr lvl [] ++ tail = tail from by rw [prettyArr]; simp]
    rw [hel x (List.mem_cons_self _ _) tail (g' + 1) htail (by
      simp only [prettyArr, List.length_nil] at hf
      omega)]
    simp only [Bind.bind, Except.bind, hskip]
    rw [List.reverse_cons]
  | cons y ys ih =>
    intro x acc tail pre f hel hskip htail hf
    obtain ⟨g, rfl⟩ : ∃ g, f = g + 1 := ⟨f - 1, by omega⟩
    obtain ⟨g', rfl⟩ : ∃ g'', g = g'' + 1 := ⟨g - 1, by
      have := prettyAt_length_pos lvl x
      omega⟩
    have harr : prettyArr lvl (y :: ys) ++ tail
        = ',' :: (nlIndent lvl ++ (prettyAt lvl y ++ (prettyArr lvl ys ++ tail))) := by
      rw [prettyArr]
      simp [List.append_assoc]
    rw [parseArrayElems, parseValue_ws]
    rw [hel x (List.mem_cons_self _ _) (prettyArr lvl (y :: ys) ++ tail) (g' + 1)
      (by rw [harr]; exact headSafe_comma _) (by
        have h1 : 1 ≤ (nlIndent lvl).length := by rw [nlIndent_length]; omega
        have h2 : 1 ≤ (prettyAt lvl y).length := prettyAt_length_pos lvl y
        simp only [prettyArr, List.length_cons, List.length_append] at hf ⊢
        omega)]
    simp only [Bind.bind, Except.bind, harr, skipWs_nonws ',' _ (by decide)]
    rw [show Json.arr (acc.reverse ++ x :: y :: ys) = .arr ((x :: acc).reverse ++ y :: ys) from by
      rw [List.reverse_cons, List.append_assoc]; rfl]
    exact ih y (x :: acc) tail pre (g' + 1)
      (fun z hz => hel z (List.mem_cons_of_mem _ hz)) hskip htail (by
        have h1 : 1 ≤ (nlIndent lvl).length := by rw [nlIndent_length]; omega
        have h2 : 1 ≤ (prettyAt lvl x).length := prettyAt_length_pos lvl x
        simp only [prettyArr, List.length_cons, List.length_append] at hf ⊢
        omega)

theorem parseObjElems_pretty (lvl : Nat) (kvs : List (List Char × Json)) :
    ∀ (k : List Char) (v : Json) (acc : List (List Char × Json)) (tail pre : List Char) (f : Nat),
      (∀ kv ∈ (k, v) :: kvs, ∀ (pre' : List Char) (f' : Nat), headSafe pre' →
          (prettyAt lvl kv.2).length < f' →
          parseValue f' (prettyAt lvl kv.2 ++ pre') = .ok (kv.2, pre')) →
      skipWs tail = '\x7d' :: pre →
      headSafe tail →
      sortedKeys (acc ++ (k, v) :: kvs) = true →
      (prettyAt lvl v).length + (prettyObjEntries lvl kvs).length + 1 < f →
      parseObjElems f acc
        (nlIndent lvl ++ (quoteString k
          ++ (':' :: ' ' :: (prettyAt lvl v ++ (prettyObjEntries lvl kvs ++ tail)))))
        = .ok (.obj (acc ++ (k, v) :: kvs), pre) := by
  induction kvs with
  | nil =>
    intro k v acc tail pre f hel hskip htail hsorted hf
    obtain ⟨g, rfl⟩ : ∃ g, f = g + 1 := ⟨f - 1, by omega⟩
    obtain ⟨g', rfl⟩ : ∃ g'', g = g'' + 1 := ⟨g - 1, by
      have := prettyAt_length_pos lvl v
      omega⟩
    have hq : quoteString k ++ (':' :: ' ' :: (prettyAt lvl v ++ (prettyObjEntries lvl [] ++ tail)))
        = '"' :: (escString k ++ '"' :: (':' :: ' ' :: (prettyAt lvl v ++ tail))) := by
      rw [quoteString, prettyObjEntries]
      simp [List.append_assoc]
    have hsw : skipWs (nlIndent lvl ++ (quoteString k
        ++ (':' :: ' ' :: (prettyAt lvl v ++ (prettyObjEntries lvl [] ++ tail)))))
        = '"' :: (escString k ++ '"' :: (':' :: ' ' :: (prettyAt lvl v ++ tail))) := by
      rw [skipWs_nlIndent, hq, skipWs_nonws '"' _ (by decide)]
    have hps := parseStringBody_esc k
      ((escString k ++ '"' :: (':' :: ' ' :: (prettyAt lvl v ++ tail))).length + 1)
      (':' :: ' ' :: (prettyAt lvl v ++ tail))
      (by
        have := escString_length k
        simp only [List.length_append, List.length_cons]
        omega)
    have hel1 := hel (k, v) (List.mem_cons_self _ _) tail (g' + 1) htail (by
      show (prettyAt lvl v).length < g' + 1
      simp only [prettyObjEntries, List.length_nil] at hf
      omega)
    simp only [parseObjElems, hsw, hps, Bind.bind, Except.bind,
      skipWs_nonws ':' _ (by decide), parseValue_space, hel1, hskip]
    rw [mapInsert_append (sorted_append_mem_lt hsorted)]
  | cons kv2 kvs2 ih =>
    obtain ⟨k2, v2⟩ := kv2
    intro k v acc tail pre f hel hskip htail hsorted hf
    obtain ⟨g, rfl⟩ : ∃ g, f = g + 1 := ⟨f - 1, by omega⟩
    obtain ⟨g', rfl⟩ : ∃ g'', g = g'' + 1 := ⟨g - 1, by
      have := prettyAt_length_pos lvl v
      omega⟩
    have hent : prettyObjEntries lvl ((k2, v2) :: kvs2) ++ tail
        = ',' :: (nlIndent lvl ++ (quoteString k2
            ++ (':' :: ' ' :: (prettyAt lvl v2 ++ (prettyObjEntries lvl kvs2 ++ tail))))) := by
      rw [prettyObjEntries]
      simp [List.append_assoc]
    have hq : quoteString k
        ++ (':' :: ' ' :: (prettyAt lvl v ++ (prettyObjEntries lvl ((k2, v2) :: kvs2) ++ tail)))
        = '"' :: (escString k ++ '"' :: (':' :: ' ' ::
            (prettyAt lvl v ++ (prettyObjEntries lvl ((k2, v2) :: kvs2) ++ tail)))) := by
      rw [quoteString]
      simp [List.append_assoc]
    have hsw : skipWs (nlIndent lvl ++ (quoteString k
        ++ (':' :: ' ' :: (prettyAt lvl v ++ (prettyObjEntries lvl ((k2, v2) :: kvs2) ++ tail)))))
        = '"' :: (escString k ++ '"' :: (':' :: ' ' ::
            (prettyAt lvl v ++ (prettyObjEntries lvl ((k2, v2) :: kvs2) ++ tail)))) := by
      rw [skipWs_nlIndent, hq, skipWs_nonws '"' _ (by decide)]
    have hps := parseStringBody_esc k
      ((escString k ++ '"' :: (':' :: ' ' ::
        (prettyAt lvl v ++ (prettyObjEntries lvl ((k2, v2) :: kvs2) ++ tail)))).length + 1)
      (':' :: ' ' :: (prettyAt lvl v ++ (prettyObjEntries lvl ((k2, v2) :: kvs2) ++ tail)))
      (by
        have := escString_length k
        simp only [List.length_append, List.length_cons]
        omega)
    have hlen1 : 1 ≤ (nlIndent lvl).length := by rw [nlIndent_length]; omega
    have hlen2 : 1 ≤ (prettyAt lvl v2).length := prettyAt_length_pos lvl v2
    have hlen3 : 2 ≤ (quoteString k2).length := by
      rw [quoteString]
      simp
    have hel1 := hel (k, v) (List.mem_cons_self _ _)
      (prettyObjEntries lvl ((k2, v2) :: kvs2) ++ tail) (g' + 1)
      (by rw [hent]; exact headSafe_comma _) (by
        show (prettyAt lvl v).length < g' + 1
        simp only [prettyObjEntries, List.length_cons, List.length_append] at hf
        omega)
    rw [parseObjElems]
    simp only [hsw, hps, Bind.bind, Except.bind,
      skipWs_nonws ':' _ (by decide), parseValue_space, hel1]
    simp only [hent, skipWs_nonws ',' _ (by decide)]
    rw [mapInsert_append (sorted_append_mem_lt hsorted)]
    rw [show Json.obj (acc ++ (k, v) :: (k2, v2) :: kvs2)
        = .obj ((acc ++ [(k, v)]) ++ (k2, v2) :: kvs2) from by
      rw [List.append_assoc]; rfl]
    exact ih k2 v2 (acc ++ [(k, v)]) tail pre (g' + 1)
      (fun kv hkv => hel kv (List.mem_cons_of_mem _ hkv)) hskip htail
      (by rw [List.append_assoc]; exact hsorted) (by
        simp only [prettyObjEntries, List.length_cons, List.length_append] at hf ⊢
        omega)

theorem parseValue_pretty (v : Json) : wf v = true →
    ∀ (lvl : Nat) (pre : List Char) (f : Nat), headSafe pre → (prettyAt lvl v).length < f →
      parseValue f (prettyAt lvl v ++ pre) = .ok (v, pre) := by
  induction v using Json.inductionOn with
  | hnull =>
    intro _ lvl pre f hpre hf
    obtain ⟨g, rfl⟩ : ∃ g, f = g + 1 := ⟨f - 1, by omega⟩
    rw [show prettyAt lvl Json.null ++ pre = 'n' :: 'u' :: 'l' :: 'l' :: pre from rfl]
    exact pv_null g pre
  | hbool b =>
    intro _ lvl pre f hpre hf
    obtain ⟨g, rfl⟩ : ∃ g, f = g + 1 := ⟨f - 1, by omega⟩
    cases b
    · rw [show prettyAt lvl (Json.bool false) ++ pre = 'f' :: 'a' :: 'l' :: 's' :: 'e' :: pre
        from rfl]
      exact pv_false g pre
    · rw [show prettyAt lvl (Json.bool true) ++ pre = 't' :: 'r' :: 'u' :: 'e' :: pre from rfl]
      exact pv_true g pre
  | hint n =>
    intro hwf lvl pre f hpre hf
    obtain ⟨g, rfl⟩ : ∃ g, f = g + 1 := ⟨f - 1, by omega⟩
    simp only [wf, Bool.and_eq_true, decide_eq_true_eq] at hwf
    rw [show prettyAt lvl (Json.int n) = intPrint n from rfl]
    exact pv_int n hwf.1 hwf.2 g pre hpre
  | hstr s =>
    intro _ lvl pre f hpre hf
    obtain ⟨g, rfl⟩ : ∃ g, f = g + 1 := ⟨f - 1, by omega⟩
    rw [show prettyAt lvl (Json.str s) = quoteString s from rfl]
    exact pv_str s g pre
  | harr xs ih =>
    intro hwf lvl pre f hpre hf
    obtain ⟨g, rfl⟩ : ∃ g, f = g + 1 := ⟨f - 1, by omega⟩
    cases xs with
    | nil =>
      rw [show prettyAt lvl (Json.arr []) ++ pre = '[' :: ']' :: pre from rfl]
      exact pv_emptyArr g pre
    | cons x xs =>
      rw [wf] at hwf
      have hel : ∀ y ∈ x :: xs, ∀ (pre' : List Char) (f' : Nat), headSafe pre' →
          (prettyAt (lvl + 1) y).length < f' →
          parseValue f' (prettyAt (lvl + 1) y ++ pre') = .ok (y, pre') :=
        fun y hy => ih y hy (wfList_mem hwf y hy) (lvl + 1)
      have hshape : prettyAt lvl (Json.arr (x :: xs)) ++ pre
          = '[' :: (nlIndent (lvl + 1) ++ (prettyAt (lvl + 1) x ++ (prettyArr (lvl + 1) xs
              ++ (nlIndent lvl ++ ']' :: pre)))) := by
        rw [show prettyAt lvl (Json.arr (x :: xs))
            = '[' :: (nlIndent (lvl + 1) ++ prettyAt (lvl + 1) x ++ prettyArr (lvl + 1) xs)
              ++ nlIndent lvl ++ [']'] from rfl]
        simp [List.append_assoc]
      have hlen : (prettyAt lvl (Json.arr (x :: xs))).length
          = 1 + ((nlIndent (lvl + 1)).length + ((prettyAt (lvl + 1) x).length
            + ((prettyArr (lvl + 1) xs).length + ((nlIndent lvl).length + 1)))) := by
        have := congrArg List.length (show prettyAt lvl (Json.arr (x :: xs))
            = '[' :: (nlIndent (lvl + 1) ++ prettyAt (lvl + 1) x ++ prettyArr (lvl + 1) xs)
              ++ nlIndent lvl ++ [']'] from rfl)
        simp only [List.length_append, List.length_cons, List.length_nil] at this
        rw [this]
        ring
      obtain ⟨c0, t0, hx0, hst0⟩ := prettyAt_shape x (wfList_mem hwf x (List.mem_cons_self _ _))
        (lvl + 1)
      have hswR : skipWs (nlIndent (lvl + 1) ++ (prettyAt (lvl + 1) x ++ (prettyArr (lvl + 1) xs
          ++ (nlIndent lvl ++ ']' :: pre))))
          = c0 :: (t0 ++ (prettyArr (lvl + 1) xs ++ (nlIndent lvl ++ ']' :: pre))) := by
        rw [skipWs_nlIndent, hx0, List.cons_append,
          skipWs_nonws c0 _ (startChar_not_ws c0 hst0)]
      rw [hshape]
      simp only [parseValue, skipWs_nonws '[' _ (by decide)]
      rw [if_neg (by decide), if_neg (by decide), if_neg (by decide), if_neg (by decide),
        if_pos trivial]
      rw [hswR]
      split
      · rename_i rest2 heq
        rw [List.cons.injEq] at heq
        exact absurd heq.1 (startChar_ne_rb c0 hst0)
      · rw [show Json.arr (x :: xs) = .arr (List.reverse [] ++ x :: xs) from rfl]
        exact parseArrayElems_pretty (lvl + 1) xs x [] (nlIndent lvl ++ ']' :: pre) pre g hel
          (by rw [skipWs_nlIndent, skipWs_nonws ']' _ (by decide)])
          (headSafe_nlIndent lvl _)
          (by
            rw [hlen] at hf
            rw [nlIndent_length] at hf
            omega)
  | hobj kvs ih =>
    intro hwf lvl pre f hpre hf
    obtain ⟨g, rfl⟩ : ∃ g, f = g + 1 := ⟨f - 1, by omega⟩
    cases kvs with
    | nil =>
      rw [show prettyAt lvl (Json.obj []) ++ pre = '\x7b' :: '\x7d' :: pre from rfl]
      exact pv_emptyObj g pre
    | cons kv kvs =>
      obtain ⟨k, v⟩ := kv
      rw [wf, Bool.and_eq_true] at hwf
      obtain ⟨hsorted, hwfo⟩ := hwf
      have hel : ∀ kv ∈ (k, v) :: kvs, ∀ (pre' : List Char) (f' : Nat), headSafe pre' →
          (prettyAt (lvl + 1) kv.2).length < f' →
          parseValue f' (prettyAt (lvl + 1) kv.2 ++ pre') = .ok (kv.2, pre') :=
        fun kv hkv => ih kv hkv (wfObj_mem hwfo kv hkv) (lvl + 1)
      have hshape : prettyAt lvl (Json.obj ((k, v) :: kvs)) ++ pre
          = '\x7b' :: (nlIndent (lvl + 1) ++ (quoteString k ++ (':' :: ' ' ::
              (prettyAt (lvl + 1) v ++ (prettyObjEntries (lvl + 1) kvs
                ++ (nlIndent lvl ++ '\x7d' :: pre)))))) := by
        rw [show prettyAt lvl (Json.obj ((k, v) :: kvs))
            = '\x7b' :: (nlIndent (lvl + 1) ++ quoteString k ++ ':' :: ' ' ::
                prettyAt (lvl + 1) v ++ prettyObjEntries (lvl + 1) kvs)
              ++ nlIndent lvl ++ ['\x7d'] from rfl]
        simp [List.append_assoc]
      have hlen : (prettyAt lvl (Json.obj ((k, v) :: kvs))).length
          = 1 + ((nlIndent (lvl + 1)).length + ((quoteString k).length + (2
            + ((prettyAt (lvl + 1) v).length + ((prettyObjEntries (lvl + 1) kvs).length
              + ((nlIndent lvl).length + 1)))))) := by
        have := congrArg List.length (show prettyAt lvl (Json.obj ((k, v) :: kvs))
            = '\x7b' :: (nlIndent (lvl + 1) ++ quoteString k ++ ':' :: ' ' ::
                prettyAt (lvl + 1) v ++ prettyObjEntries (lvl + 1) kvs)
              ++ nlIndent lvl ++ ['\x7d'] from rfl)
        simp only [List.length_append, List.length_cons, List.length_nil] at this
        rw [this]
        ring
      have hq : quoteString k ++ (':' :: ' ' :: (prettyAt (lvl + 1) v
          ++ (prettyObjEntries (lvl + 1) kvs ++ (nlIndent lvl ++ '\x7d' :: pre))))
          = '"' :: (escString k ++ '"' :: (':' :: ' ' :: (prettyAt (lvl + 1) v
            ++ (prettyObjEntries (lvl + 1) kvs ++ (nlIndent lvl ++ '\x7d' :: pre))))) := by
        rw [quoteString]
        simp [List.append_assoc]
      have hswR : skipWs (nlIndent (lvl + 1) ++ (quoteString k ++ (':' :: ' ' ::
          (prettyAt (lvl + 1) v ++ (prettyObjEntries (lvl + 1) kvs
            ++ (nlIndent lvl ++ '\x7d' :: pre))))))
          = '"' :: (escString k ++ '"' :: (':' :: ' ' :: (prettyAt (lvl + 1) v
            ++ (prettyObjEntries (lvl + 1) kvs ++ (nlIndent lvl ++ '\x7d' :: pre))))) := by
        rw [skipWs_nlIndent, hq, skipWs_nonws '"' _ (by decide)]
      rw [hshape]
      simp only [parseValue, skipWs_nonws '\x7b' _ (by decide)]
      rw [if_neg (by decide), if_neg (by decide), if_neg (by decide), if_neg (by decide),
        if_neg (by decide), if_pos trivial]
      rw [hswR]
      split
      · rename_i rest2 heq
        rw [List.cons.injEq] at heq
        exact absurd heq.1 (by decide)
      · rw [show Json.obj ((k, v) :: kvs) = .obj (([] : List (List Char × Json))
          ++ (k, v) :: kvs) from rfl]
        exact parseObjElems_pretty (lvl + 1) kvs k v [] (nlIndent lvl ++ '\x7d' :: pre) pre g hel
          (by rw [skipWs_nlIndent, skipWs_nonws '\x7d' _ (by decide)])
          (headSafe_nlIndent lvl _)
          (by rw [List.nil_append]; exact hsorted)
          (by
            rw [hlen] at hf
            rw [nlIndent_length] at hf
            have : 2 ≤ (quoteString k).length := by rw [quoteString]; simp
            omega)

theorem parseJson_pretty (v : Json) (hwf : wf v = true) :
    parseJson (prettyPrint v) = .ok v := by
  rw [parseJson]
  have h := parseValue_pretty v hwf 0 [] ((prettyPrint v).length + 1) trivial (by
    rw [prettyPrint]
    omega)
  rw [List.append_nil] at h
  rw [prettyPrint] at h
  rw [prettyPrint, h]
  rfl


/-- C1 (amended): for every JSON text `j` that the converter accepts with
parsed value `v` of in-range container and string sizes, if the transport
string produced by `json_to_messagepack` is not made of hex digits only,
then `messagepack_to_json` on it returns `Ok` of the pretty-printed `v`,
and parsing that output yields a value structurally equal to `v`.  The
amendment excludes transport strings that `is_hex` classifies as
hexadecimal: the claim as stated fails on those (see
the hex-collision counterexample). -/
theorem roundtrip_base64_path (j out : List Char) (v : Json)
    (hp : parseJson j = .ok v) (hsz : sizeOk v = true)
    (henc : json_to_messagepack j = .ok out) (hhex : is_hex out = false) :
    messagepack_to_json out = .ok (prettyPrint v) ∧ parseJson (prettyPrint v) = .ok v := by
  have hwf : wf v = true := parseJson_wf j v hp
  have hout : out = base64Encode (encode v) := by
    rw [json_to_messagepack, hp] at henc
    simp only [Except.mapError, Bind.bind, Except.bind, to_vec, Except.ok.injEq] at henc
    exact henc.symm
  subst hout
  refine ⟨?_, parseJson_pretty v hwf⟩
  have hdec : base64Decode (base64Encode (encode v)) = .ok (encode v) :=
    base64_roundtrip (encode v) (encode_lt v)
  have hfs : from_slice (encode v) = .ok v := by
    rw [from_slice]
    have hde := decodeOne_encode v hwf hsz (4 * (encode v).length + 4) [] (by omega)
    rw [List.append_nil] at hde
    rw [hde]
    rfl
  rw [messagepack_to_json, transportDecode, if_neg (by rw [hhex]; simp)]
  rw [hdec]
  simp only [Except.mapError, Bind.bind, Except.bind, hfs, to_string_pretty]

/-- C1 (counterexample to the claim as stated): the accepted JSON text
`-200` serializes to the MessagePack bytes `d1 ff 38`, whose base64
transport string `0f84` happens to consist only of hex digits, so
`messagepack_to_json` decodes it as hexadecimal instead: the round trip
still returns `Ok`, but the text it yields parses to `15`, not to the
original value `-200`. -/
theorem roundtrip_hex_counterexample :
    json_to_messagepack "-200".data = .ok "0f84".data ∧
    is_hex "0f84".data = true ∧
    messagepack_to_json "0f84".data = .ok "15".data ∧
    parseJson "-200".data = .ok (.int (-200)) ∧
    parseJson "15".data = .ok (.int 15) ∧
    Json.int (-200) ≠ Json.int 15 :=
  ⟨rfl, rfl, rfl, rfl, rfl, by simp⟩

/-- Witness for the amended C1 round trip: the repository test example
`\x7b\x7d` (the empty object), whose transport string `gA==` is not
all-hex; both conjuncts of the theorem are exercised. -/
theorem roundtrip_base64_path_witness :
    parseJson "\x7b\x7d".data = .ok (.obj []) ∧ sizeOk (.obj []) = true ∧
    json_to_messagepack "\x7b\x7d".data = .ok "gA==".data ∧
    is_hex "gA==".data = false ∧
    messagepack_to_json "gA==".data = .ok (prettyPrint (.obj [])) ∧
    parseJson (prettyPrint (.obj [])) = .ok (.obj []) := by
  refine ⟨rfl, rfl, rfl, rfl, ?_, ?_⟩
  · exact (roundtrip_base64_path "\x7b\x7d".data "gA==".data (.obj []) rfl rfl rfl rfl).1
  · exact (roundtrip_base64_path "\x7b\x7d".data "gA==".data (.obj []) rfl rfl rfl rfl).2

end MpJson
